import Mathlib

/-!
# Verification of the spreadsheet formula engine

A shallow embedding of the TypeScript spreadsheet core (address codec,
lexer, parser, dependency graph, evaluator, engine) together with proofs
and refutations of the specification's claims.

Modelling conventions:
* JS strings are Lean `String`s; character scanning works on `String.data`
  (`List Char`).
* JS numbers are modelled as `ℚ` (exact rational arithmetic).  All claims
  under scrutiny involve only small integer arithmetic, where IEEE-754
  doubles and `ℚ` agree.  `NaN` is modelled as `Option.none` where it can
  arise (`Number(string)` coercion), and the `Infinity` sentinels of
  `evaluateMin`/`evaluateMax` are modelled with `Option`.
* JS `Map`/`Set`/`Record` are association lists / duplicate-free lists in
  insertion order, which matches JS iteration order.
* Thrown JS `Error`s are `Except String`; the engine distinguishes thrown
  errors only by whether the message starts with `"CIRC:"`, which the
  embedding preserves.  Position numbers inside lexer error messages are
  dropped (they are never branched on).
* The while-loops of `hasCycle`, `getEvaluationOrder` and the mutual
  recursion of the evaluator are embedded with explicit fuel; the fuel
  bounds are chosen (and for `hasCycle` proved) large enough that the
  embedded function agrees with the source's unbounded loop.
-/

namespace Spreadsheet

/-- The `[A-Z]` character class of the address regexes, as a codepoint
range (65–90). -/
def isUpperAZ (c : Char) : Bool := 65 ≤ c.toNat && c.toNat ≤ 90

/-- JS `\d` (codepoints 48–57). -/
def isDigitC (c : Char) : Bool := 48 ≤ c.toNat && c.toNat ≤ 57

/-- JS `[a-zA-Z]` (lexer `isLetter`). -/
def isLetterC (c : Char) : Bool :=
  (97 ≤ c.toNat && c.toNat ≤ 122) || (65 ≤ c.toNat && c.toNat ≤ 90)

/-- JS `[a-zA-Z0-9]` character class (lexer `isAlphaNumeric`). -/
def isAlphaNumC (c : Char) : Bool := isLetterC c || isDigitC c

/-- JS `\s` on the characters the formulas can contain. -/
def isSpaceC (c : Char) : Bool := c = ' ' || c = '\t' || c = '\n' || c = '\r'

/-! ## Address codec (`utils/cell-helpers.ts` and `types/index.ts`)

`colToLetter` mirrors the source's while loop
(`colNum -= 1; result = chr(65 + colNum % 26) + result; colNum /= 26`),
phrased as recursion on the 1-based column number. -/

/-- The loop body of `colToLetter`, on the 1-based column number.  The
first argument is fuel (structural, so that the kernel can evaluate it);
the loop iterates at most `n` times, so fuel `n` always suffices. -/
def colToLetterAux : Nat → Nat → List Char
  | _, 0 => []
  | 0, _ + 1 => []
  | f + 1, n + 1 => colToLetterAux f (n / 26) ++ [Char.ofNat (65 + n % 26)]

/-- `colToLetter(col)`: bijective base-26 rendering; `colToLetter(-1) = ""`
exactly as in JS (the loop is skipped when `col + 1 ≤ 0`). -/
def colToLetter (col : Int) : String :=
  ⟨colToLetterAux (col + 1).toNat (col + 1).toNat⟩

/-- `letterToCol(letters)`: `foldl (acc * 26 + (code - 65 + 1))` then `- 1`. -/
def letterToCol (letters : String) : Int :=
  (letters.data.foldl (fun acc c => acc * 26 + ((c.toNat : Int) - 65 + 1)) 0) - 1

/-- Decimal digits of a positive natural, mirroring JS `Number.toString()`.
Fuel-structural for the same reason as `colToLetterAux`. -/
def decDigitsAux : Nat → Nat → List Char
  | _, 0 => []
  | 0, _ + 1 => []
  | f + 1, n + 1 => decDigitsAux f ((n + 1) / 10) ++ [Char.ofNat (48 + (n + 1) % 10)]

/-- JS `n.toString()` for a non-negative number. -/
def natToString (n : Nat) : String := if n = 0 then "0" else ⟨decDigitsAux n n⟩

/-- Reading of a `\$?` group: consume one leading `$` if present. -/
def stripDollar (cs : List Char) : Bool × List Char :=
  match cs with
  | c :: rest => if c = '$' then (true, rest) else (false, c :: rest)
  | [] => (false, [])

/-- Deterministic reading of the address regex
`^(\$?)([A-Z]+)(\$?)([1-9][0-9]*)$` (the character classes are disjoint,
so the regex engine's backtracking never has a second choice).  Returns
the four capture groups. -/
def splitAddress (cs : List Char) : Option (Bool × List Char × Bool × List Char) :=
  let p1 := stripDollar cs
  let letters := p1.2.takeWhile isUpperAZ
  let cs2 := p1.2.dropWhile isUpperAZ
  if letters.isEmpty then none
  else
    let p2 := stripDollar cs2
    match p2.2 with
    | [] => none
    | d :: ds =>
      if (49 ≤ d.toNat && d.toNat ≤ 57) && ds.all isDigitC then
        some (p1.1, letters, p2.1, d :: ds)
      else none

/-- JS `parseInt` on an all-digit string (the only way the source calls it
on address rows). -/
def parseDigits (cs : List Char) : Nat :=
  cs.foldl (fun acc c => acc * 10 + (c.toNat - 48)) 0

/-- `toCellAddress(addr)` (`types/index.ts`): validates against
`^\$?[A-Z]+\$?[1-9][0-9]*$` and returns the string unchanged; a failed
match throws, modelled as `none`. -/
def toCellAddress (addr : String) : Option String :=
  if (splitAddress addr.data).isSome then some addr else none

/-- Result record of `parseAddress`. -/
structure AddrParts where
  col : Int
  row : Int
  absoluteCol : Bool
  absoluteRow : Bool
deriving DecidableEq, Repr

/-- `parseAddress(addr)` (`utils/cell-helpers.ts`): regex match, then
`letterToCol` on the letters and `parseInt(rowStr) - 1`. -/
def parseAddress (addr : String) : Option AddrParts :=
  match splitAddress addr.data with
  | none => none
  | some (ac, letters, ar, digits) =>
    some { col := letterToCol ⟨letters⟩
           row := (parseDigits digits : Int) - 1
           absoluteCol := ac
           absoluteRow := ar }

/-- `formatAddress(col,row,absoluteCol,absoluteRow)`: prepends `$` markers
around `colToLetter`/1-based row and validates via `toCellAddress` (in the
source the concatenation happens on strings; here the same characters are
assembled at the `List Char` level).  A negative coordinate throws
(`none`). -/
def formatAddress (col row : Int) (absoluteCol absoluteRow : Bool) : Option String :=
  if col < 0 ∨ row < 0 then none
  else
    toCellAddress
      ⟨(if absoluteCol then ['$'] else []) ++ (colToLetter col).data
        ++ (if absoluteRow then ['$'] else []) ++ (natToString (row + 1).toNat).data⟩

/-- `parseCellAddress(addr)` (`types/index.ts`): like `parseAddress` but
discarding the `$` flags.  The regex is the same. -/
def parseCellAddress (addr : String) : Option (Int × Int) :=
  match splitAddress addr.data with
  | none => none
  | some (_, letters, _, digits) =>
    some (letterToCol ⟨letters⟩, (parseDigits digits : Int) - 1)

/-- `formatCellAddress(col,row)` (`types/index.ts`): same letter loop as
`colToLetter` followed by the 1-based row, validated by `toCellAddress`. -/
def formatCellAddress (col row : Int) : Option String :=
  if col < 0 ∨ row < 0 then none
  else toCellAddress ⟨(colToLetter col).data ++ (natToString (row + 1).toNat).data⟩

/-- `getCellsInRange(start,end)` (`utils/cell-helpers.ts`): min/max
normalizes both axes, then walks columns outer / rows inner.  (Contrast
with the evaluator's `evaluateRange`, which does not normalize.) -/
def getCellsInRange (startAddr endAddr : String) : Option (List String) :=
  match parseAddress startAddr, parseAddress endAddr with
  | some sp, some ep =>
    let minCol := min sp.col ep.col
    let maxCol := max sp.col ep.col
    let minRow := min sp.row ep.row
    let maxRow := max sp.row ep.row
    let cols := (List.range (maxCol - minCol + 1).toNat).map (fun i => minCol + i)
    let rows := (List.range (maxRow - minRow + 1).toNat).map (fun i => minRow + i)
    (cols.flatMap (fun c => rows.map (fun r => (c, r)))).mapM
      (fun p => formatCellAddress p.1 p.2)
  | _, _ => none

/-! ## JS numbers

JS numbers are modelled as exact rationals represented by an unnormalized
`num/den` fraction (operations keep `den` positive).  This keeps every
operation kernel-computable.  All arithmetic appearing in the claims is
small-integer arithmetic, on which IEEE-754 doubles are exact, so the
rational model agrees with the host semantics there. -/

structure JsNum where
  num : Int
  den : Int
deriving DecidableEq, Repr

namespace JsNum

/-- Embed an integer. -/
def ofInt (i : Int) : JsNum := ⟨i, 1⟩

/-- The number `0`. -/
def zero : JsNum := ofInt 0

/-- The number `1`. -/
def one : JsNum := ofInt 1

def neg (a : JsNum) : JsNum := ⟨-a.num, a.den⟩

def add (a b : JsNum) : JsNum := ⟨a.num * b.den + b.num * a.den, a.den * b.den⟩

def sub (a b : JsNum) : JsNum := ⟨a.num * b.den - b.num * a.den, a.den * b.den⟩

def mul (a b : JsNum) : JsNum := ⟨a.num * b.num, a.den * b.den⟩

/-- Exact division; the sign is normalized into the numerator so that the
denominator stays positive. -/
def div (a b : JsNum) : JsNum :=
  let n := a.num * b.den
  let d := a.den * b.num
  if d < 0 then ⟨-n, -d⟩ else ⟨n, d⟩

/-- Value equality of fractions (JS `===` on numbers). -/
def valEq (a b : JsNum) : Bool := a.num * b.den == b.num * a.den

/-- Value comparison (denominators are kept positive by the operations). -/
def lt (a b : JsNum) : Bool := decide (a.num * b.den < b.num * a.den)

def le (a b : JsNum) : Bool := decide (a.num * b.den ≤ b.num * a.den)

/-- `Math.pow` for exactly-integer exponents.  Fractional exponents follow
host floating-point `pow` semantics, which the rational model cannot
express; no claim exercises `^`, so those return `0` here. -/
def pow (a b : JsNum) : JsNum :=
  if b.den = 0 then zero
  else if b.num % b.den = 0 then
    let e := b.num / b.den
    if 0 ≤ e then ⟨a.num ^ e.toNat, a.den ^ e.toNat⟩
    else
      let n := a.den ^ (-e).toNat
      let d := a.num ^ (-e).toNat
      if d < 0 then ⟨-n, -d⟩ else ⟨n, d⟩
  else zero

end JsNum

/-- Core of JS decimal-literal reading: `[0-9]*` optionally followed by
`.` and `[0-9]*`, at least one digit in total, nothing trailing. -/
def parseDecimalCore (cs : List Char) : Option JsNum :=
  let ip := cs.takeWhile isDigitC
  let rest := cs.dropWhile isDigitC
  match rest with
  | [] => if ip.isEmpty then none else some ⟨(parseDigits ip : Int), 1⟩
  | '.' :: fp =>
    if fp.all isDigitC && !(ip.isEmpty && fp.isEmpty) then
      some ⟨(parseDigits ip : Int) * (10 : Int) ^ fp.length + (parseDigits fp : Int),
            (10 : Int) ^ fp.length⟩
    else none
  | _ => none

/-- JS `Number(string)` coercion, `none` meaning `NaN`.  Whitespace is
trimmed, the empty string is `0`, then an optional sign and a plain
decimal literal.  (Host JS additionally accepts exponents, hex literals
and `Infinity`; no claim involves such strings.) -/
def jsNumberOfString (s : String) : Option JsNum :=
  let t := ((s.data.dropWhile isSpaceC).reverse.dropWhile isSpaceC).reverse
  if t.isEmpty then some JsNum.zero
  else
    match t with
    | '-' :: r => (parseDecimalCore r).map JsNum.neg
    | '+' :: r => parseDecimalCore r
    | _ => parseDecimalCore t

/-- JS `parseFloat` on a lexer NUMBER token (digits with at most one
decimal point, so the default branch is unreachable). -/
def parseFloatTok (s : String) : JsNum := (parseDecimalCore s.data).getD JsNum.zero

/-- JS `parseInt`, `none` meaning `NaN`: trim, optional sign, then a
non-empty run of leading digits (host radix prefixes are not modelled; the
source only applies it to address tails). -/
def jsParseInt (s : String) : Option Int :=
  let t := s.data.dropWhile isSpaceC
  let core : List Char → Option Int := fun cs =>
    let ds := cs.takeWhile isDigitC
    if ds.isEmpty then none else some (parseDigits ds : Int)
  match t with
  | '-' :: r => (core r).map Int.neg
  | '+' :: r => core r
  | _ => core t

/-! ## JS runtime values

`CellValue = number | string | boolean | null`, plus the arrays produced
by range evaluation (`evaluateRange` returns `CellValue[] as any`, which
may nest when a cell's formula is itself a bare range). -/

inductive JsVal where
  | num (v : JsNum)
  | str (s : String)
  | boolean (b : Bool)
  | null
  | arr (vs : List JsVal)

/-- JS `===` between runtime values.  Distinct evaluations always build
distinct array objects, so `===` on arrays (reference equality) is
`false`. -/
def jsStrictEq : JsVal → JsVal → Bool
  | .num a, .num b => JsNum.valEq a b
  | .str a, .str b => a == b
  | .boolean a, .boolean b => a == b
  | .null, .null => true
  | _, _ => false

/-- JS `Boolean(v)` (truthiness).  `NaN` cannot arise as a stored value in
the model, arrays are truthy objects. -/
def jsTruthy : JsVal → Bool
  | .num v => !(JsNum.valEq v JsNum.zero)
  | .str s => !(s == "")
  | .boolean b => b
  | .null => false
  | .arr _ => true

/-- `FormulaEngine.toNumber`: number verbatim; string via `Number()` with
`NaN ↦ 0`; boolean `1/0`; anything else (null, arrays) `0`. -/
def toNumber : JsVal → JsNum
  | .num v => v
  | .str s => (jsNumberOfString s).getD JsNum.zero
  | .boolean b => if b then JsNum.one else JsNum.zero
  | .null => JsNum.zero
  | .arr _ => JsNum.zero

/-! ## Cells, AST, sheet (`types/index.ts`) -/

/-- `FormulaAst`.  The source's node tags are `'number' | 'string' |
'boolean' | 'ref' | 'range' | 'function' | 'binary' | 'unary'`; the
`function` tag is spelled `func` (keyword) and `range`'s `start`/`end`
fields are `startA`/`endA` (keyword).  A `ref` carries
`absolute: {col, row}` as two booleans. -/
inductive FormulaAst where
  | number (value : JsNum)
  | string (value : String)
  | boolean (value : Bool)
  | ref (address : String) (absoluteCol absoluteRow : Bool)
  | range (startA endA : String)
  | func (name : String) (args : List FormulaAst)
  | binary (op : String) (left right : FormulaAst)
  | unary (op : String) (operand : FormulaAst)

/-- `Cell = LiteralCell | FormulaCell | ErrorCell`.  The error `code` is a
string, as in `EvalResult.error.code`; literal values are the scalar
subset of `JsVal`. -/
inductive Cell where
  | literal (value : JsVal)
  | formula (src : String) (ast : FormulaAst)
  | error (code message : String)

/-- The sheet fields the core reads/writes: the `cells` record, as an
insertion-ordered association list (JS object key order).  `id`, `name`,
`rows`, `cols`, `updatedAt` never influence evaluation and are omitted. -/
structure Sheet where
  cells : List (String × Cell)

/-- `EvalResult = {value, error?: {code, message}}`. -/
structure EvalResult where
  value : JsVal
  error : Option (String × String)

/-- Generic JS `Map.get` / record lookup on an association list. -/
def mapGet {α : Type} (m : List (String × α)) (k : String) : Option α :=
  (m.find? (fun e => e.1 = k)).map (fun e => e.2)

/-- JS `Map.set` / record spread-update: overwrite in place if the key
exists (keeping its position), otherwise append. -/
def mapSet {α : Type} (m : List (String × α)) (k : String) (v : α) : List (String × α) :=
  if (m.find? (fun e => e.1 = k)).isSome then
    m.map (fun e => if e.1 = k then (k, v) else e)
  else m ++ [(k, v)]

/-- JS `Map.delete` (keys are unique, so filtering is the same). -/
def mapDelete {α : Type} (m : List (String × α)) (k : String) : List (String × α) :=
  m.filter (fun e => ¬ (e.1 = k))

/-- JS `Set.add` in insertion order. -/
def setAdd (s : List String) (v : String) : List String :=
  if v ∈ s then s else s ++ [v]

/-- JS `Set.delete`. -/
def setDelete (s : List String) (v : String) : List String :=
  s.filter (fun x => ¬ (x = v))

/-- `sheet.cells[address]`. -/
def lookupCell (sheet : Sheet) (address : String) : Option Cell :=
  mapGet sheet.cells address

/-! ## Dependency graph (`lib/engine.ts`, class `DependencyGraph`) -/

structure DependencyGraph where
  dependencies : List (String × List String)
  dependents : List (String × List String)

/-- A fresh `new DependencyGraph()`. -/
def emptyGraph : DependencyGraph := ⟨[], []⟩

/-- Value of `dependencies.get(cell) || new Set()`. -/
def getDependencies (g : DependencyGraph) (cell : String) : List String :=
  (mapGet g.dependencies cell).getD []

/-- Value of `dependents.get(cell) || new Set()`. -/
def getDependents (g : DependencyGraph) (cell : String) : List String :=
  (mapGet g.dependents cell).getD []

/-- `addDependency(from, to)`: ensure both keys exist, then add the edge
to both maps. -/
def addDependency (g : DependencyGraph) (fromCell toCell : String) : DependencyGraph :=
  let deps :=
    if (mapGet g.dependencies fromCell).isSome then g.dependencies
    else mapSet g.dependencies fromCell []
  let dents :=
    if (mapGet g.dependents toCell).isSome then g.dependents
    else mapSet g.dependents toCell []
  { dependencies := mapSet deps fromCell (setAdd ((mapGet deps fromCell).getD []) toCell)
    dependents := mapSet dents toCell (setAdd ((mapGet dents toCell).getD []) fromCell) }

/-- First block of `removeDependencies(cell)`: drop `cell` as a source
and unregister it from its dependencies' dependent sets. -/
def removeDependenciesPhase1 (g : DependencyGraph) (cell : String) : DependencyGraph :=
  match mapGet g.dependencies cell with
  | some deps =>
    { dependencies := mapDelete g.dependencies cell
      dependents := deps.foldl
        (fun m dep =>
          match mapGet m dep with
          | some ds => mapSet m dep (setDelete ds cell)
          | none => m) g.dependents }
  | none => g

/-- `removeDependencies(cell)`: the first block above, then drop `cell`
as a target and unregister it from its dependents' dependency sets. -/
def removeDependencies (g : DependencyGraph) (cell : String) : DependencyGraph :=
  let g1 := removeDependenciesPhase1 g cell
  match mapGet g1.dependents cell with
  | some dents =>
    { dependencies := dents.foldl
        (fun m dependent =>
          match mapGet m dependent with
          | some ds => mapSet m dependent (setDelete ds cell)
          | none => m) g1.dependencies
      dependents := mapDelete g1.dependents cell }
  | none => g1

/-- The DFS loop of `hasCycle`, with the list head as the stack top (the
source pushes/pops at the array end; pushed dependency batches are
reversed so the pop order is identical).  The first argument is fuel for
the while loop; `hasCycle` supplies a provably sufficient amount. -/
def dfsReach (g : DependencyGraph) (fromCell : String) :
    Nat → List String → List String → Bool
  | 0, _, _ => false
  | _ + 1, [], _ => false
  | f + 1, current :: stack, visited =>
    if current = fromCell then true
    else if current ∈ visited then dfsReach g fromCell f stack visited
    else
      dfsReach g fromCell f
        (((getDependencies g current).filter
            (fun d => ¬ d ∈ (current :: visited))).reverse ++ stack)
        (current :: visited)

/-- Total number of dependency-edge entries (used only to size the DFS
fuel). -/
def totalDepSize (g : DependencyGraph) : Nat :=
  g.dependencies.foldl (fun acc e => acc + e.2.length) 0

/-- Every node the DFS can ever see: the start node plus all keys and all
edge targets (used only to size the DFS fuel). -/
def univList (g : DependencyGraph) (toCell : String) : List String :=
  toCell :: g.dependencies.foldr (fun e acc => e.1 :: e.2 ++ acc) []

/-- `hasCycle(from, to)`: DFS from `to` looking for `from` over the
`dependencies` edges, the graph untouched.  Each loop iteration pops one
node and every node is expanded at most once, so
`|univ| * (1 + total edges) + 2` iterations always suffice (proved by the
`hasCycle` correctness theorem below). -/
def hasCycle (g : DependencyGraph) (fromCell toCell : String) : Bool :=
  dfsReach g fromCell ((univList g toCell).length * (1 + totalDepSize g) + 2) [toCell] []

/-- The while loop of `getEvaluationOrder` (Kahn queue processing).  The
queue is FIFO (`shift` from the front, push at the back); degrees are
integers, matching JS (a degree may go negative and must then not
re-enqueue). -/
def kahnLoop (g : DependencyGraph) :
    Nat → List (String × Int) → List String → List String → List String
  | 0, _, _, result => result
  | _ + 1, _, [], result => result
  | f + 1, inDegree, current :: queue, result =>
    let step := (getDependencies g current).foldl
      (fun (p : List (String × Int) × List String) dep =>
        match mapGet p.1 dep with
        | some deg =>
          let nd := deg - 1
          (mapSet p.1 dep nd, if nd = 0 then p.2 ++ [dep] else p.2)
        | none => p) (inDegree, [])
    kahnLoop g f step.1 (queue ++ step.2) (result ++ [current])

/-- `getEvaluationOrder(cells)`: in-degree table in insertion order, seed
queue with degree-0 cells, then the Kahn loop.  Each cell is enqueued at
most once (seeded at degree 0, or decremented to exactly 0 once), so
`cells.length + 1` loop iterations always suffice. -/
def getEvaluationOrder (g : DependencyGraph) (cells : List String) : List String :=
  let inDeg0 : List (String × Int) := cells.foldl (fun m cell => mapSet m cell 0) []
  let inDeg1 := cells.foldl
    (fun (m : List (String × Int)) cell =>
      (getDependencies g cell).foldl
        (fun (m : List (String × Int)) dep =>
          match mapGet m dep with
          | some deg => mapSet m dep (deg + 1)
          | none => m) m) inDeg0
  let queue0 := (inDeg1.filter (fun e => e.2 = 0)).map (fun e => e.1)
  kahnLoop g (cells.length + 1) inDeg1 queue0 []

/-! ## String helpers mirroring JS string methods

Defined on `String.data` so that symbolic reasoning stays at the
`List Char` level. -/

/-- JS `s.startsWith(pre)`. -/
def jsStartsWith (s pre : String) : Bool := s.data.take pre.data.length == pre.data

/-- JS `s.substring(n)` / `s.slice(n)` for `0 ≤ n` (ASCII data, so UTF-16
units coincide with characters). -/
def jsSubstring (s : String) (n : Nat) : String := ⟨s.data.drop n⟩

/-- JS `s.toUpperCase()` on the ASCII identifiers the engine sees. -/
def jsToUpper (s : String) : String := ⟨s.data.map Char.toUpper⟩

/-- JS `s.includes(c)`. -/
def jsIncludes (s : String) (c : Char) : Bool := s.data.contains c

/-! ## Evaluator (`lib/engine.ts`, class `FormulaEngine`) -/

/-- The evaluation context: sheet snapshot, address being resolved, and
the live cycle-guard visited set.  (`trace` is carried by the source but
never written by any evaluation rule, hence omitted.) -/
structure EvalContext where
  sheet : Sheet
  currentCell : String
  visited : List String

/-- JS `for (x = a; x <= b; x++)` iteration values. -/
def intRangeIncl (a b : Int) : List Int :=
  if b < a then [] else (List.range (b - a + 1).toNat).map (fun i => a + i)

/-- The addresses enumerated by `evaluateRange`'s nested loops: rows
outer, columns inner, ascending from the parsed start corner to the
parsed end corner — no min/max normalization.  A failed address parse or
format throws (the source's `parseCellAddress`/`formatCellAddress`
throw). -/
def rangeAddresses (startA endA : String) : Except String (List String) :=
  match parseCellAddress startA with
  | none => .error ("Invalid cell address: " ++ startA)
  | some (scol, srow) =>
    match parseCellAddress endA with
    | none => .error ("Invalid cell address: " ++ endA)
    | some (ecol, erow) =>
      ((intRangeIncl srow erow).flatMap
        (fun r => (intRangeIncl scol ecol).map (fun c => (c, r)))).mapM
        (fun p =>
          match formatCellAddress p.1 p.2 with
          | some s => .ok s
          | none => .error "Invalid cell coordinates")

/-- Resolves each range address in order through the cycle-guarded cell
reference logic (the loop body of `evaluateRange`). -/
def evalAddrList (resolve : String → EvalContext → Except String JsVal) :
    List String → EvalContext → Except String (List JsVal)
  | [], _ => .ok []
  | a :: rest, ctx => do
    let v ← resolve a ctx
    let vs ← evalAddrList resolve rest ctx
    .ok (v :: vs)

/-- `evaluateRange(start, end, ctx)`. -/
def evaluateRange (resolve : String → EvalContext → Except String JsVal)
    (startA endA : String) (ctx : EvalContext) : Except String (List JsVal) := do
  let addrs ← rangeAddresses startA endA
  evalAddrList resolve addrs ctx

/-- The value-level tail of `evaluateBinaryOp` (everything after the two
recursive `evaluateAst` calls on the operands). -/
def applyBinaryOp (op : String) (leftVal rightVal : JsVal) : Except String JsVal :=
  if op = "+" then .ok (.num (JsNum.add (toNumber leftVal) (toNumber rightVal)))
  else if op = "-" then .ok (.num (JsNum.sub (toNumber leftVal) (toNumber rightVal)))
  else if op = "*" then .ok (.num (JsNum.mul (toNumber leftVal) (toNumber rightVal)))
  else if op = "/" then
    let leftNum := toNumber leftVal
    let rightNum := toNumber rightVal
    if JsNum.valEq rightNum JsNum.zero then .error "Division by zero"
    else .ok (.num (JsNum.div leftNum rightNum))
  else if op = "^" then .ok (.num (JsNum.pow (toNumber leftVal) (toNumber rightVal)))
  else if op = "=" then .ok (.boolean (jsStrictEq leftVal rightVal))
  else if op = "<>" then .ok (.boolean (!(jsStrictEq leftVal rightVal)))
  else if op = "<" then .ok (.boolean (JsNum.lt (toNumber leftVal) (toNumber rightVal)))
  else if op = "<=" then .ok (.boolean (JsNum.le (toNumber leftVal) (toNumber rightVal)))
  else if op = ">" then .ok (.boolean (JsNum.lt (toNumber rightVal) (toNumber leftVal)))
  else if op = ">=" then .ok (.boolean (JsNum.le (toNumber rightVal) (toNumber leftVal)))
  else .error ("Unknown binary operator: " ++ op)

/-- The value-level tail of `getNumericValues`: arrays keep only numbers;
a scalar number stands alone; a numeric-looking string is coerced;
anything else contributes nothing. -/
def numericValuesOf (value : JsVal) : List JsNum :=
  match value with
  | .arr vs => vs.filterMap (fun v => match v with | .num q => some q | _ => none)
  | .num q => [q]
  | .str s => (match jsNumberOfString s with | some q => [q] | none => [])
  | _ => []

/-- The value-level tail of `getAllValues`: arrays flattened one level,
scalars singleton. -/
def allValuesOf (value : JsVal) : List JsVal :=
  match value with
  | .arr vs => vs
  | v => [v]

/-- The `isTruthy` test of `evaluateIf`:
`Boolean(c) && c !== 0 && c !== ''`. -/
def ifTruthy (condition : JsVal) : Bool :=
  jsTruthy condition && !(jsStrictEq condition (.num JsNum.zero))
    && !(jsStrictEq condition (.str ""))

mutual

/-- `evaluateAst(ast, ctx)`, parameterized by the cell-reference resolver
(which carries the recursion fuel; see `evaluateCellRef`).  The
`evaluateFunction` name dispatch and the `evaluateBinaryOp` operand
evaluation are inlined here (their value-level parts are the standalone
definitions above) so that the recursion is structural over the AST. -/
def evaluateAstW (resolve : String → EvalContext → Except String JsVal) :
    FormulaAst → EvalContext → Except String JsVal
  | .number v, _ => .ok (.num v)
  | .string s, _ => .ok (.str s)
  | .boolean b, _ => .ok (.boolean b)
  | .ref address _ _, ctx => resolve address ctx
  | .range s e, ctx => do
    let vs ← evaluateRange resolve s e ctx
    .ok (.arr vs)
  | .func name args, ctx =>
    -- `evaluateFunction(name, args, ctx)`: case-insensitive dispatch
    let upperName := jsToUpper name
    if upperName = "SUM" then do
      let s ← sumListW resolve args JsNum.zero ctx
      .ok (.num s)
    else if upperName = "AVERAGE" ∨ upperName = "AVG" then do
      let sc ← avgListW resolve args JsNum.zero 0 ctx
      .ok (.num (if sc.2 > 0 then JsNum.div sc.1 (JsNum.ofInt sc.2) else JsNum.zero))
    else if upperName = "MIN" then do
      let m ← minListW resolve args none ctx
      .ok (.num (match m with | none => JsNum.zero | some v => v))
    else if upperName = "MAX" then do
      let m ← maxListW resolve args none ctx
      .ok (.num (match m with | none => JsNum.zero | some v => v))
    else if upperName = "COUNT" then do
      let c ← countListW resolve args 0 ctx
      .ok (.num (JsNum.ofInt c))
    else if upperName = "IF" then evaluateIfW resolve args ctx
    else .error ("Unknown function: " ++ name)
  | .binary op l r, ctx => do
    -- `evaluateBinaryOp(op, left, right, ctx)`
    let leftVal ← evaluateAstW resolve l ctx
    let rightVal ← evaluateAstW resolve r ctx
    applyBinaryOp op leftVal rightVal
  | .unary op x, ctx => do
    let operand ← evaluateAstW resolve x ctx
    if op = "-" then
      .ok (match operand with
        | .num v => .num (JsNum.neg v)
        | _ => .num JsNum.zero)
    else if op = "+" then
      .ok (match operand with
        | .num v => .num v
        | _ => .num JsNum.zero)
    else .error ("Unknown unary operator: " ++ op)

/-- `evaluateSum`'s loop: running sum over the flattened numeric values
of each argument (`sum += values.reduce((acc, val) => acc + val, 0)`). -/
def sumListW (resolve : String → EvalContext → Except String JsVal) :
    List FormulaAst → JsNum → EvalContext → Except String JsNum
  | [], acc, _ => .ok acc
  | a :: rest, acc, ctx => do
    let value ← evaluateAstW resolve a ctx
    let values := numericValuesOf value
    sumListW resolve rest (JsNum.add acc (values.foldl JsNum.add JsNum.zero)) ctx

/-- `evaluateAverage`'s loop: running sum and count. -/
def avgListW (resolve : String → EvalContext → Except String JsVal) :
    List FormulaAst → JsNum → Int → EvalContext → Except String (JsNum × Int)
  | [], accSum, accCount, _ => .ok (accSum, accCount)
  | a :: rest, accSum, accCount, ctx => do
    let value ← evaluateAstW resolve a ctx
    let values := numericValuesOf value
    avgListW resolve rest (JsNum.add accSum (values.foldl JsNum.add JsNum.zero))
      (accCount + values.length) ctx

/-- `evaluateMin`'s loop: `none` is the `Infinity` sentinel (any value
compares below it). -/
def minListW (resolve : String → EvalContext → Except String JsVal) :
    List FormulaAst → Option JsNum → EvalContext → Except String (Option JsNum)
  | [], acc, _ => .ok acc
  | a :: rest, acc, ctx => do
    let value ← evaluateAstW resolve a ctx
    let values := numericValuesOf value
    minListW resolve rest
      (values.foldl
        (fun m v =>
          match m with
          | none => some v
          | some mv => if JsNum.lt v mv then some v else some mv) acc) ctx

/-- `evaluateMax`'s loop: `none` is the `-Infinity` sentinel. -/
def maxListW (resolve : String → EvalContext → Except String JsVal) :
    List FormulaAst → Option JsNum → EvalContext → Except String (Option JsNum)
  | [], acc, _ => .ok acc
  | a :: rest, acc, ctx => do
    let value ← evaluateAstW resolve a ctx
    let values := numericValuesOf value
    maxListW resolve rest
      (values.foldl
        (fun m v =>
          match m with
          | none => some v
          | some mv => if JsNum.lt mv v then some v else some mv) acc) ctx

/-- `evaluateCount`'s loop: count values that are neither `null` nor
empty text, across all argument values. -/
def countListW (resolve : String → EvalContext → Except String JsVal) :
    List FormulaAst → Int → EvalContext → Except String Int
  | [], acc, _ => .ok acc
  | a :: rest, acc, ctx => do
    let value ← evaluateAstW resolve a ctx
    let values := allValuesOf value
    countListW resolve rest
      (acc + (values.filter
        (fun v => !(jsStrictEq v .null) && !(jsStrictEq v (.str "")))).length) ctx

/-- `evaluateIf(args, ctx)`: 2 or 3 arguments; the 2-argument form yields
`false` on a falsy condition. -/
def evaluateIfW (resolve : String → EvalContext → Except String JsVal) :
    List FormulaAst → EvalContext → Except String JsVal
  | [c, t], ctx => do
    let condition ← evaluateAstW resolve c ctx
    if ifTruthy condition then evaluateAstW resolve t ctx
    else .ok (.boolean false)
  | [c, t, e], ctx => do
    let condition ← evaluateAstW resolve c ctx
    if ifTruthy condition then evaluateAstW resolve t ctx
    else evaluateAstW resolve e ctx
  | _, _ => .error "IF function requires 2 or 3 arguments"

end

/-- `evaluateCellRef(address, ctx)`: visited-set cycle check first, then
resolve the target cell; a formula target recurses with the address
pushed onto the visited set (the source pops it afterwards on both the
success and failure path, so passing the extended set is equivalent).
The fuel bounds the depth of formula-to-formula recursion; every claim is
evaluated with ample fuel. -/
def evaluateCellRef : Nat → String → EvalContext → Except String JsVal
  | fuel, address, ctx =>
    if address ∈ ctx.visited then
      .error ("CIRC:Circular reference detected: " ++ address)
    else
      match lookupCell ctx.sheet address with
      | none => .ok (.str "")
      | some (.literal v) => .ok v
      | some (.error _ message) => .error message
      | some (.formula _ ast) =>
        match fuel with
        | 0 => .error "FUEL"
        | f + 1 =>
          evaluateAstW (evaluateCellRef f) ast
            { ctx with visited := address :: ctx.visited }

/-- `evaluateAst` with a concrete recursion budget. -/
def evaluateAst (fuel : Nat) (ast : FormulaAst) (ctx : EvalContext) : Except String JsVal :=
  evaluateAstW (evaluateCellRef fuel) ast ctx

/-- `evaluateCell(sheet, address)`: dispatch on the cell variant; formula
failures are caught at this boundary and classified as CYCLE when the
message carries the `CIRC:` marker, and PARSE otherwise.  (The `trace`
flag only toggles the optional `explain` payload and is omitted.) -/
def evaluateCell (fuel : Nat) (sheet : Sheet) (address : String) : EvalResult :=
  match lookupCell sheet address with
  | none => ⟨.str "", none⟩
  | some (.literal v) => ⟨v, none⟩
  | some (.error code message) => ⟨.null, some (code, message)⟩
  | some (.formula _ ast) =>
    match evaluateAst fuel ast ⟨sheet, address, [address]⟩ with
    | .ok v => ⟨v, none⟩
    | .error msg =>
      if jsStartsWith msg "CIRC:" then ⟨.null, some ("CYCLE", jsSubstring msg 5)⟩
      else ⟨.null, some ("PARSE", msg)⟩

/-! ## Engine orchestration (`lib/engine.ts`, `FormulaEngine` methods) -/

/-- The address string `` `${String.fromCharCode(65 + col)}${row + 1}` ``
built by `extractDependencies`' range branch (faithful for the in-range
coordinates the claims use; the source's template string would render
out-of-range coordinates as other characters/negative digits, which no
valid address produces). -/
def rawRangeAddr (col row : Int) : String :=
  ⟨Char.ofNat (65 + col).toNat :: (natToString (row + 1).toNat).data⟩

mutual

/-- `extractDependencies(ast, fromCell)`: one edge per `CellRef`, one per
cell of a `RangeRef` span (the range corners are re-parsed with
`charCodeAt(0) - 65` / `parseInt(slice(1))`, so only single-letter
columns work there), recursion into compound nodes, nothing for
literals.  A `NaN` corner (modelled `none`) makes the JS loops run zero
times, i.e. adds nothing. -/
def extractDependencies : FormulaAst → String → DependencyGraph → DependencyGraph
  | .ref address _ _, fromCell, g => addDependency g fromCell address
  | .range s e, fromCell, g =>
    (match s.data.head?, jsParseInt (jsSubstring s 1), e.data.head?,
        jsParseInt (jsSubstring e 1) with
      | some sc, some sr, some ec, some er =>
        let startCol : Int := (sc.toNat : Int) - 65
        let startRow : Int := sr - 1
        let endCol : Int := (ec.toNat : Int) - 65
        let endRow : Int := er - 1
        (intRangeIncl startCol endCol).foldl
          (fun g col =>
            (intRangeIncl startRow endRow).foldl
              (fun g row => addDependency g fromCell (rawRangeAddr col row)) g) g
      | _, _, _, _ => g)
  | .binary _ l r, fromCell, g =>
    extractDependencies r fromCell (extractDependencies l fromCell g)
  | .unary _ x, fromCell, g => extractDependencies x fromCell g
  | .func _ args, fromCell, g => extractDependenciesList args fromCell g
  | .number _, _, g => g
  | .string _, _, g => g
  | .boolean _, _, g => g

/-- The `for (const arg of ast.args)` loop of `extractDependencies`. -/
def extractDependenciesList : List FormulaAst → String → DependencyGraph → DependencyGraph
  | [], _, g => g
  | a :: rest, fromCell, g => extractDependenciesList rest fromCell (extractDependencies a fromCell g)

end

/-- `evaluateSheet(sheet)`: rebuild the graph from every formula cell,
compute one evaluation order over the formula cells, evaluate each in
that order.  Returns the built graph (the engine's `depGraph` state after
the call) with the per-address results. -/
def evaluateSheet (fuel : Nat) (sheet : Sheet) :
    DependencyGraph × List (String × EvalResult) :=
  let g := sheet.cells.foldl
    (fun g e =>
      match e.2 with
      | .formula _ ast => extractDependencies ast e.1 g
      | _ => g) emptyGraph
  let formulaCells := (sheet.cells.filter
    (fun e => match e.2 with | .formula _ _ => true | _ => false)).map (fun e => e.1)
  let evaluationOrder := getEvaluationOrder g formulaCells
  (g, evaluationOrder.map (fun a => (a, evaluateCell fuel sheet a)))

/-- The outcome of `updateCell`: the source returns only the new sheet
and discards each `evaluateCell` result; the embedding also records the
engine's graph state and the re-evaluation loop (which addresses were
re-evaluated, in order, and what each evaluated to) so that claims about
the recalculation can be stated. -/
structure UpdateResult where
  sheet : Sheet
  graph : DependencyGraph
  recalculated : List (String × EvalResult)

/-- `updateCell(sheet, address, cell)`: replace the cell, patch the graph
(`removeDependencies`, then re-extract if the new cell is a formula),
collect the address's dependents, order just that set, re-evaluate each
in order. -/
def updateCell (fuel : Nat) (g : DependencyGraph) (sheet : Sheet)
    (address : String) (cell : Cell) : UpdateResult :=
  let newSheet : Sheet := ⟨mapSet sheet.cells address cell⟩
  let g1 := removeDependencies g address
  let g2 :=
    match cell with
    | .formula _ ast => extractDependencies ast address g1
    | _ => g1
  let dependents := getDependents g2 address
  let toRecalculate := dependents
  let recalculated :=
    if toRecalculate.length > 0 then
      (getEvaluationOrder g2 toRecalculate).map (fun a => (a, evaluateCell fuel newSheet a))
    else []
  ⟨newSheet, g2, recalculated⟩

/-! Sanity checks (spec §8 scenarios). -/

/-- A1=1, A2=2, A3=`=SUM(A1:A2)`. -/
def sheetSum : Sheet :=
  ⟨[("A1", .literal (.num (JsNum.ofInt 1))),
    ("A2", .literal (.num (JsNum.ofInt 2))),
    ("A3", .formula "SUM(A1:A2)" (.func "SUM" [.range "A1" "A2"]))]⟩

-- `removeDependencies("A1")` erases the `dependents` entry of A1 before
-- `getDependents("A1")` is consulted, so nothing is re-evaluated.
-- What the re-evaluation WOULD yield had A3 been recalculated on the
-- updated sheet.
/-- `=1/0`. -/
def sheetDiv0 : Sheet :=
  ⟨[("A1", .formula "1/0"
    (.binary "/" (.number (JsNum.ofInt 1)) (.number (JsNum.ofInt 0))))]⟩

/-- A1=`=A1`. -/
def sheetSelfRef : Sheet := ⟨[("A1", .formula "A1" (.ref "A1" false false))]⟩

/-! ## Lexer (`lib/parser.ts`, class `Lexer`)

Tokens carry kind and raw text; the source also records a position that
is only interpolated into error messages, never branched on, and is
dropped here (so lexer error messages omit the `at position N` tail). -/

inductive TokKind where
  | NUMBER
  | STRING
  | CELL_REF
  | FUNCTION
  | OPERATOR
  | LPAREN
  | RPAREN
  | COMMA
  | COLON
  | EOF
deriving DecidableEq, Repr

structure Token where
  kind : TokKind
  value : String
deriving DecidableEq, Repr

/-- Kind names as used in `expect`'s error messages. -/
def kindStr : TokKind → String
  | .NUMBER => "NUMBER"
  | .STRING => "STRING"
  | .CELL_REF => "CELL_REF"
  | .FUNCTION => "FUNCTION"
  | .OPERATOR => "OPERATOR"
  | .LPAREN => "LPAREN"
  | .RPAREN => "RPAREN"
  | .COMMA => "COMMA"
  | .COLON => "COLON"
  | .EOF => "EOF"

/-- `readNumber`'s scan: digits with at most one decimal point.  Returns
the token text and the remaining input. -/
def readNumberChars : List Char → Bool → List Char × List Char
  | [], _ => ([], [])
  | c :: rest, hasDecimal =>
    if isDigitC c then
      let p := readNumberChars rest hasDecimal
      (c :: p.1, p.2)
    else if c = '.' && !hasDecimal then
      let p := readNumberChars rest true
      (c :: p.1, p.2)
    else ([], c :: rest)

/-- `readString`'s scan after the opening quote: `none` when no closing
quote is found (`Unterminated string literal`); a backslash skips two
characters, both kept verbatim in the token text. -/
def readStringChars : List Char → Option (List Char × List Char)
  | [] => none
  | '"' :: rest => some ([], rest)
  | '\\' :: c :: rest => (readStringChars rest).map (fun p => ('\\' :: c :: p.1, p.2))
  | '\\' :: [] => none
  | c :: rest => (readStringChars rest).map (fun p => (c :: p.1, p.2))

/-- `isCellReference`: the regex `^\$?[A-Z]+\$?\d+$` (note `\d+`, which
also accepts row digits starting with `0`; `toCellAddress` later rejects
those), read deterministically as in `splitAddress`. -/
def isCellReferenceStr (cs : List Char) : Bool :=
  let p1 := stripDollar cs
  let letters := p1.2.takeWhile isUpperAZ
  let cs2 := p1.2.dropWhile isUpperAZ
  if letters.isEmpty then false
  else
    let p2 := stripDollar cs2
    match p2.2 with
    | [] => false
    | ds => ds.all isDigitC

/-- The identifier-continuation test of `readIdentifier`. -/
def isIdentCont (c : Char) : Bool := isAlphaNumC c || c = '$'

/-- `Lexer.nextToken()`: skip whitespace, then dispatch on the first
character. -/
def nextToken (input : List Char) : Except String (Token × List Char) :=
  let cs := input.dropWhile isSpaceC
  match cs with
  | [] => .ok (⟨.EOF, ""⟩, [])
  | c :: rest =>
    if isDigitC c || (c = '.' && (match rest with | c2 :: _ => isDigitC c2 | [] => false)) then
      let p := readNumberChars cs false
      .ok (⟨.NUMBER, ⟨p.1⟩⟩, p.2)
    else if c = '"' then
      match readStringChars rest with
      | none => .error "Unterminated string literal"
      | some p => .ok (⟨.STRING, ⟨p.1⟩⟩, p.2)
    else if isLetterC c then
      let tokChars := c :: rest.takeWhile isIdentCont
      let r := rest.dropWhile isIdentCont
      if isCellReferenceStr tokChars then .ok (⟨.CELL_REF, ⟨tokChars⟩⟩, r)
      else .ok (⟨.FUNCTION, ⟨tokChars⟩⟩, r)
    else
      match c, rest with
      | '(', r => .ok (⟨.LPAREN, "("⟩, r)
      | ')', r => .ok (⟨.RPAREN, ")"⟩, r)
      | ',', r => .ok (⟨.COMMA, ","⟩, r)
      | ':', r => .ok (⟨.COLON, ":"⟩, r)
      | '+', r => .ok (⟨.OPERATOR, "+"⟩, r)
      | '-', r => .ok (⟨.OPERATOR, "-"⟩, r)
      | '*', r => .ok (⟨.OPERATOR, "*"⟩, r)
      | '/', r => .ok (⟨.OPERATOR, "/"⟩, r)
      | '^', r => .ok (⟨.OPERATOR, "^"⟩, r)
      | '=', r => .ok (⟨.OPERATOR, "="⟩, r)
      | '<', '=' :: r => .ok (⟨.OPERATOR, "<="⟩, r)
      | '<', '>' :: r => .ok (⟨.OPERATOR, "<>"⟩, r)
      | '<', r => .ok (⟨.OPERATOR, "<"⟩, r)
      | '>', '=' :: r => .ok (⟨.OPERATOR, ">="⟩, r)
      | '>', r => .ok (⟨.OPERATOR, ">"⟩, r)
      | _, _ => .error ("Unexpected character: " ++ ⟨[c]⟩)

/-! ## Parser (`lib/parser.ts`, class `Parser`)

Recursive descent with precedence climbing.  The parser state is the
current token plus the unlexed remainder (the source pulls tokens from
the lexer one at a time).  Fuel bounds the recursion depth; every
recursive call consumes at least a token or descends, so
`2 * |input| + 8` is ample, and all theorems about successful parses
quantify over the fuel. -/

/-- The `PRECEDENCE` table; `0` encodes "not present" (the source tests
`!precedence`). -/
def precedenceOf (op : String) : Int :=
  if op = "=" ∨ op = "<>" then 1
  else if op = "<" ∨ op = "<=" ∨ op = ">" ∨ op = ">=" then 2
  else if op = "+" ∨ op = "-" then 3
  else if op = "*" ∨ op = "/" then 4
  else if op = "^" then 5
  else 0

mutual

/-- `parseExpression(minPrecedence)`. -/
def parseExpressionP : Nat → Int → Token → List Char →
    Except String (FormulaAst × Token × List Char)
  | 0, _, _, _ => .error "FUEL"
  | f + 1, minPrec, cur, rest => do
    let p ← parsePrimaryP f cur rest
    parseBinRestP f minPrec p.1 p.2.1 p.2.2

/-- The `while (current is OPERATOR ...)` loop of `parseExpression`. -/
def parseBinRestP : Nat → Int → FormulaAst → Token → List Char →
    Except String (FormulaAst × Token × List Char)
  | 0, _, _, _, _ => .error "FUEL"
  | f + 1, minPrec, left, cur, rest =>
    if cur.kind = .OPERATOR then
      let op := cur.value
      let prec := precedenceOf op
      if prec = 0 ∨ prec < minPrec then .ok (left, cur, rest)
      else do
        let a ← nextToken rest
        let p ← parseExpressionP f (prec + 1) a.1 a.2
        parseBinRestP f minPrec (.binary op left p.1) p.2.1 p.2.2
    else .ok (left, cur, rest)

/-- `parsePrimary()`. -/
def parsePrimaryP : Nat → Token → List Char →
    Except String (FormulaAst × Token × List Char)
  | 0, _, _ => .error "FUEL"
  | f + 1, cur, rest =>
    match cur.kind with
    | .NUMBER => do
      let a ← nextToken rest
      .ok (.number (parseFloatTok cur.value), a.1, a.2)
    | .STRING => do
      let a ← nextToken rest
      .ok (.string cur.value, a.1, a.2)
    | .CELL_REF => do
      let cellRef := cur.value
      let a ← nextToken rest
      if a.1.kind = .COLON then do
        let b ← nextToken a.2
        if b.1.kind = .CELL_REF then do
          let endRef := b.1.value
          let c ← nextToken b.2
          match toCellAddress cellRef with
          | none => .error ("Invalid cell address format: " ++ cellRef)
          | some s =>
            match toCellAddress endRef with
            | none => .error ("Invalid cell address format: " ++ endRef)
            | some e => .ok (.range s e, c.1, c.2)
        else .error "Expected cell reference after colon"
      else
        match toCellAddress cellRef with
        | none => .error ("Invalid cell address format: " ++ cellRef)
        | some addr =>
          .ok (.ref addr (jsIncludes cellRef '$') (jsIncludes cellRef '$'), a.1, a.2)
    | .FUNCTION => do
      let funcName := cur.value
      let a ← nextToken rest
      parseFunctionP f funcName a.1 a.2
    | .LPAREN => do
      let a ← nextToken rest
      let p ← parseExpressionP f 0 a.1 a.2
      if p.2.1.kind = .RPAREN then do
        let b ← nextToken p.2.2
        .ok (p.1, b.1, b.2)
      else .error ("Expected RPAREN but got " ++ kindStr p.2.1.kind)
    | .OPERATOR =>
      if cur.value = "-" ∨ cur.value = "+" then do
        let op := cur.value
        let a ← nextToken rest
        let p ← parsePrimaryP f a.1 a.2
        .ok (.unary op p.1, p.2.1, p.2.2)
      else .error ("Unexpected operator: " ++ cur.value)
    | _ => .error ("Unexpected token: " ++ cur.value)

/-- `parseFunction(name)`: `(`, comma-separated arguments, `)`. -/
def parseFunctionP : Nat → String → Token → List Char →
    Except String (FormulaAst × Token × List Char)
  | 0, _, _, _ => .error "FUEL"
  | f + 1, name, cur, rest =>
    if cur.kind = .LPAREN then do
      let a ← nextToken rest
      if a.1.kind = .RPAREN then do
        let b ← nextToken a.2
        .ok (.func name [], b.1, b.2)
      else do
        let p ← parseExpressionP f 0 a.1 a.2
        let q ← parseArgsRestP f [p.1] p.2.1 p.2.2
        if q.2.1.kind = .RPAREN then do
          let b ← nextToken q.2.2
          .ok (.func name q.1, b.1, b.2)
        else .error ("Expected RPAREN but got " ++ kindStr q.2.1.kind)
    else .error ("Expected LPAREN but got " ++ kindStr cur.kind)

/-- The `while (current is COMMA)` argument loop of `parseFunction`. -/
def parseArgsRestP : Nat → List FormulaAst → Token → List Char →
    Except String (List FormulaAst × Token × List Char)
  | 0, _, _, _ => .error "FUEL"
  | f + 1, acc, cur, rest =>
    if cur.kind = .COMMA then do
      let a ← nextToken rest
      let p ← parseExpressionP f 0 a.1 a.2
      parseArgsRestP f (acc ++ [p.1]) p.2.1 p.2.2
    else .ok (acc, cur, rest)

end

/-- `parseFormula(input)`: strip one leading `=`, lex the first token
(the `Parser` constructor), parse one expression, require EOF. -/
def parseFormula (input : String) : Except String FormulaAst := do
  let formula := if jsStartsWith input "=" then jsSubstring input 1 else input
  let cs := formula.data
  let t0 ← nextToken cs
  let p ← parseExpressionP (2 * cs.length + 8) 0 t0.1 t0.2
  if p.2.1.kind = .EOF then .ok p.1
  else .error ("Unexpected token: " ++ p.2.1.value)

/-! # Claim theorems -/

/-! ## C1 — DIV0 at the formula-cell boundary -/

/-- `=IF(1/0,"x","y")` as a stored formula cell. -/
def sheetIfDiv0 : Sheet :=
  ⟨[("A1", .formula "IF(1/0,\x22x\x22,\x22y\x22)"
    (.func "IF" [.binary "/" (.number ⟨1, 1⟩) (.number ⟨0, 1⟩),
      .string "x", .string "y"]))]⟩

/-- C1 (claim refuted — code evaluated at the failing inputs): the claim
says `=1/0` and `=IF(1/0,"x","y")` surface error code DIV0 at the
formula-cell boundary.  In the code, `evaluateBinaryOp` throws a plain
`Division by zero` error and `evaluateCell`'s catch re-tags every thrown
failure that does not carry the `CIRC:` marker as PARSE, so both formulas
yield error code PARSE, and the declared DIV0 code is never produced. -/
theorem div0_is_reported_as_parse :
    parseFormula "=1/0" =
      .ok (.binary "/" (.number ⟨1, 1⟩) (.number ⟨0, 1⟩))
    ∧ evaluateCell 10 sheetDiv0 "A1" = ⟨.null, some ("PARSE", "Division by zero")⟩
    ∧ parseFormula "=IF(1/0,\x22x\x22,\x22y\x22)" =
      .ok (.func "IF" [.binary "/" (.number ⟨1, 1⟩) (.number ⟨0, 1⟩),
        .string "x", .string "y"])
    ∧ evaluateCell 10 sheetIfDiv0 "A1" = ⟨.null, some ("PARSE", "Division by zero")⟩ :=
  ⟨rfl, rfl, rfl, rfl⟩

/-! ## C2 — incremental recalculation on `updateCell` -/

/-- The engine graph after `evaluateSheet` on A1=1, A2=2,
A3=`=SUM(A1:A2)` (edges A3→A1, A3→A2). -/
def sumGraph : DependencyGraph := (evaluateSheet 10 sheetSum).1

/-- `updateCell` editing A1 to the literal 10 with that engine state. -/
def sumUpdate : UpdateResult :=
  updateCell 10 sumGraph sheetSum "A1" (.literal (.num ⟨10, 1⟩))

/-- C2 (claim refuted — code evaluated at the claim's own scenario): the
claim says editing A1 re-evaluates exactly the transitive dependents of
A1 (here A3, recomputed to 12).  In the code, `updateCell` first calls
`removeDependencies(address)`, which also erases the `dependents` entry
of the edited address, so the subsequent `getDependents(address)` returns
the empty set and *nothing* is re-evaluated: the recalculation list is
empty even though A3 still depends on A1 and would evaluate to 12 on the
updated sheet. -/
theorem updateCell_recalculates_nothing :
    (evaluateSheet 10 sheetSum).2 = [("A3", ⟨.num ⟨3, 1⟩, none⟩)]
    ∧ getDependents sumGraph "A1" = ["A3"]
    ∧ sumUpdate.recalculated = []
    ∧ getDependents sumUpdate.graph "A1" = []
    ∧ evaluateCell 10 sumUpdate.sheet "A3" = ⟨.num ⟨12, 1⟩, none⟩ :=
  ⟨rfl, rfl, rfl, rfl, rfl⟩

/-! ## C3 — `getEvaluationOrder` on a linear chain -/

/-- The dependency graph of the chain A3 depends on A2 depends on A1. -/
def chainGraph : DependencyGraph :=
  addDependency (addDependency emptyGraph "A3" "A2") "A2" "A1"

/-- C3 (claim refuted — code evaluated at the claim's own scenario): the
claim says `getEvaluationOrder` places each cell after its dependencies
(A1 before A2 before A3 for the chain).  The code counts in-degrees along
the `dependencies` edges in the wrong direction (a cell's count is the
number of in-set cells that *read* it), so the queue is seeded with the
most-downstream cells and the returned order is exactly reversed:
[A3, A2, A1]. -/
theorem evaluation_order_is_reversed :
    getDependencies chainGraph "A3" = ["A2"]
    ∧ getDependencies chainGraph "A2" = ["A1"]
    ∧ getEvaluationOrder chainGraph ["A1", "A2", "A3"] = ["A3", "A2", "A1"] :=
  ⟨rfl, rfl, rfl⟩

/-! ## C4 — live cycle detection via the visited set -/

/-- A1=`=B1`, B1=`=A1` (a transitive two-cell cycle). -/
def sheetCycle2 : Sheet :=
  ⟨[("A1", .formula "B1" (.ref "B1" false false)),
    ("B1", .formula "A1" (.ref "A1" false false))]⟩

/-- Diamond: A1=`=B1+C1`, B1=`=D1`, C1=`=D1`, D1=5 (two sibling branches
reading the same safe cell). -/
def sheetDiamond : Sheet :=
  ⟨[("A1", .formula "B1+C1" (.binary "+" (.ref "B1" false false) (.ref "C1" false false))),
    ("B1", .formula "D1" (.ref "D1" false false)),
    ("C1", .formula "D1" (.ref "D1" false false)),
    ("D1", .literal (.num ⟨5, 1⟩))]⟩

/-- A visited-set hit makes `evaluateCellRef` throw the `CIRC:`-tagged
message before touching the cell or the fuel. -/
theorem evaluateCellRef_visited {fuel : Nat} {a : String} {ctx : EvalContext}
    (h : a ∈ ctx.visited) :
    evaluateCellRef fuel a ctx = .error ("CIRC:Circular reference detected: " ++ a) := by
  rw [evaluateCellRef]
  simp [h]

/-- The formula-cell catch classifies a `CIRC:`-tagged message: the
marker test succeeds and `substring(5)` strips exactly the marker. -/
theorem circ_classified (a : String) :
    jsStartsWith ("CIRC:Circular reference detected: " ++ a) "CIRC:" = true
    ∧ jsSubstring ("CIRC:Circular reference detected: " ++ a) 5
      = "Circular reference detected: " ++ a := by
  obtain ⟨ad⟩ := a
  have hdata : ("CIRC:Circular reference detected: " ++ String.mk ad).data
      = "CIRC:Circular reference detected: ".data ++ ad := rfl
  constructor
  · simp only [jsStartsWith, hdata]
    rw [List.take_append_of_le_length (by decide)]
    decide
  · simp only [jsSubstring, hdata]
    rw [List.drop_append_of_le_length (by decide)]
    rfl

/-- C4: a directly self-referential formula cell (`=A1` stored at A1, for
any sheet and any address) evaluates to an error with code CYCLE — the
visited set is seeded with the starting address, so the reference trips
the guard before any recursion; a transitive two-cell cycle is likewise
reported CYCLE; and the diamond evaluates to 10 with no error, because
each reference is removed from the visited set after its branch
resolves. -/
theorem self_reference_yields_cycle :
    (∀ (f : Nat) (sheet : Sheet) (a src : String) (ac ar : Bool),
      lookupCell sheet a = some (.formula src (.ref a ac ar)) →
      evaluateCell (f + 1) sheet a =
        ⟨.null, some ("CYCLE", "Circular reference detected: " ++ a)⟩)
    ∧ evaluateCell 10 sheetCycle2 "A1" =
        ⟨.null, some ("CYCLE", "Circular reference detected: A1")⟩
    ∧ evaluateCell 10 sheetDiamond "A1" = ⟨.num ⟨10, 1⟩, none⟩ := by
  refine ⟨?_, rfl, rfl⟩
  intro f sheet a src ac ar h
  have href : evaluateAst (f + 1) (.ref a ac ar) ⟨sheet, a, [a]⟩
      = .error ("CIRC:Circular reference detected: " ++ a) := by
    show evaluateCellRef (f + 1) a ⟨sheet, a, [a]⟩ = _
    exact evaluateCellRef_visited (List.mem_singleton.mpr rfl)
  simp only [evaluateCell, h, href, (circ_classified a).1, (circ_classified a).2, if_true]

/-- C4 witness: the general clause applied to the concrete sheet
A1=`=A1`. -/
theorem self_reference_yields_cycle_witness :
    lookupCell sheetSelfRef "A1" = some (.formula "A1" (.ref "A1" false false))
    ∧ evaluateCell 10 sheetSelfRef "A1" =
        ⟨.null, some ("CYCLE", "Circular reference detected: A1")⟩ :=
  ⟨rfl, self_reference_yields_cycle.1 9 sheetSelfRef "A1" "A1" false false rfl⟩

/-! ## C8 — empty-input policy of SUM / AVERAGE / MIN / MAX -/

/-- A sheet containing only A3=`=SUM(A1:A2)` (the whole range is
empty). -/
def sheetEmptySum : Sheet :=
  ⟨[("A3", .formula "SUM(A1:A2)" (.func "SUM" [.range "A1" "A2"]))]⟩

/-- Premise of the empty-aggregate lemmas: every argument evaluates
without failure to a value whose flattened numeric-value list is
empty. -/
def ArgsAllEmpty (resolve : String → EvalContext → Except String JsVal)
    (args : List FormulaAst) (ctx : EvalContext) : Prop :=
  ∀ a ∈ args, ∃ v, evaluateAstW resolve a ctx = .ok v ∧ numericValuesOf v = []

theorem sumListW_all_empty {resolve args ctx} (h : ArgsAllEmpty resolve args ctx) :
    sumListW resolve args JsNum.zero ctx = .ok JsNum.zero := by
  induction args with
  | nil => rfl
  | cons a rest ih =>
    obtain ⟨v, hv, hnum⟩ := h a (List.mem_cons_self a rest)
    simp only [sumListW, hv]
    show sumListW resolve rest
      (JsNum.add JsNum.zero (List.foldl JsNum.add JsNum.zero (numericValuesOf v))) ctx
      = Except.ok JsNum.zero
    rw [hnum]
    exact ih (fun x hx => h x (List.mem_cons_of_mem a hx))

theorem avgListW_all_empty {resolve args ctx} (h : ArgsAllEmpty resolve args ctx) :
    avgListW resolve args JsNum.zero 0 ctx = .ok (JsNum.zero, 0) := by
  induction args with
  | nil => rfl
  | cons a rest ih =>
    obtain ⟨v, hv, hnum⟩ := h a (List.mem_cons_self a rest)
    simp only [avgListW, hv]
    show avgListW resolve rest
      (JsNum.add JsNum.zero (List.foldl JsNum.add JsNum.zero (numericValuesOf v)))
      (0 + ((numericValuesOf v).length : Int)) ctx
      = Except.ok (JsNum.zero, 0)
    rw [hnum]
    exact ih (fun x hx => h x (List.mem_cons_of_mem a hx))

theorem minListW_all_empty {resolve args ctx} (h : ArgsAllEmpty resolve args ctx) :
    minListW resolve args none ctx = .ok none := by
  induction args with
  | nil => rfl
  | cons a rest ih =>
    obtain ⟨v, hv, hnum⟩ := h a (List.mem_cons_self a rest)
    simp only [minListW, hv]
    show minListW resolve rest
      (List.foldl
        (fun m w =>
          match m with
          | none => some w
          | some mv => if JsNum.lt w mv then some w else some mv)
        none (numericValuesOf v)) ctx
      = Except.ok none
    rw [hnum]
    exact ih (fun x hx => h x (List.mem_cons_of_mem a hx))

theorem maxListW_all_empty {resolve args ctx} (h : ArgsAllEmpty resolve args ctx) :
    maxListW resolve args none ctx = .ok none := by
  induction args with
  | nil => rfl
  | cons a rest ih =>
    obtain ⟨v, hv, hnum⟩ := h a (List.mem_cons_self a rest)
    simp only [maxListW, hv]
    show maxListW resolve rest
      (List.foldl
        (fun m w =>
          match m with
          | none => some w
          | some mv => if JsNum.lt mv w then some w else some mv)
        none (numericValuesOf v)) ctx
      = Except.ok none
    rw [hnum]
    exact ih (fun x hx => h x (List.mem_cons_of_mem a hx))

/-- C8: whenever the flattened numeric-value list of every argument is
empty, SUM, AVERAGE, MIN and MAX each return exactly the number 0 with no
error (`NaN` and infinities are unrepresentable results of the rational
semantics; the `Infinity` sentinels of MIN/MAX are replaced by 0 before
returning); concretely, `=SUM(A1:A2)` over an entirely empty range
evaluates to 0. -/
theorem empty_aggregates_return_zero :
    (∀ (resolve : String → EvalContext → Except String JsVal)
        (args : List FormulaAst) (ctx : EvalContext),
      ArgsAllEmpty resolve args ctx →
      evaluateAstW resolve (.func "SUM" args) ctx = .ok (.num JsNum.zero)
      ∧ evaluateAstW resolve (.func "AVERAGE" args) ctx = .ok (.num JsNum.zero)
      ∧ evaluateAstW resolve (.func "MIN" args) ctx = .ok (.num JsNum.zero)
      ∧ evaluateAstW resolve (.func "MAX" args) ctx = .ok (.num JsNum.zero))
    ∧ evaluateCell 10 sheetEmptySum "A3" = ⟨.num ⟨0, 1⟩, none⟩ := by
  refine ⟨?_, rfl⟩
  intro resolve args ctx h
  refine ⟨?_, ?_, ?_, ?_⟩
  · show Except.bind (sumListW resolve args JsNum.zero ctx)
      (fun s => Except.ok (JsVal.num s)) = Except.ok (JsVal.num JsNum.zero)
    rw [sumListW_all_empty h]
    rfl
  · show Except.bind (avgListW resolve args JsNum.zero 0 ctx)
      (fun sc => Except.ok (JsVal.num
        (if sc.2 > 0 then JsNum.div sc.1 (JsNum.ofInt sc.2) else JsNum.zero)))
      = Except.ok (JsVal.num JsNum.zero)
    rw [avgListW_all_empty h]
    rfl
  · show Except.bind (minListW resolve args none ctx)
      (fun m => Except.ok (JsVal.num (match m with | none => JsNum.zero | some v => v)))
      = Except.ok (JsVal.num JsNum.zero)
    rw [minListW_all_empty h]
    rfl
  · show Except.bind (maxListW resolve args none ctx)
      (fun m => Except.ok (JsVal.num (match m with | none => JsNum.zero | some v => v)))
      = Except.ok (JsVal.num JsNum.zero)
    rw [maxListW_all_empty h]
    rfl

/-- C8 witness: the hypothesis holds for `SUM(A1:A2)`'s single range
argument over the empty sheet (both cells resolve to empty text, which
contributes no numeric value), and the theorem then evaluates the SUM
call to the number 0. -/
theorem empty_aggregates_return_zero_witness :
    ArgsAllEmpty (evaluateCellRef 9) [.range "A1" "A2"] ⟨sheetEmptySum, "A3", ["A3"]⟩
    ∧ evaluateAstW (evaluateCellRef 9) (.func "SUM" [.range "A1" "A2"])
        ⟨sheetEmptySum, "A3", ["A3"]⟩ = .ok (.num JsNum.zero) := by
  have h : ArgsAllEmpty (evaluateCellRef 9) [.range "A1" "A2"]
      ⟨sheetEmptySum, "A3", ["A3"]⟩ := by
    intro a ha
    rw [List.mem_singleton] at ha
    subst ha
    exact ⟨.arr [.str "", .str ""], rfl, rfl⟩
  exact ⟨h, (empty_aggregates_return_zero.1 _ _ _ h).1⟩

/-! ## C9 — range expansion and corner normalization -/

/-- A fully populated 2×2 grid: A1=1, B1=3, A2=2, B2=4. -/
def sheetGrid : Sheet :=
  ⟨[("A1", .literal (.num ⟨1, 1⟩)),
    ("B1", .literal (.num ⟨3, 1⟩)),
    ("A2", .literal (.num ⟨2, 1⟩)),
    ("B2", .literal (.num ⟨4, 1⟩))]⟩

/-- Context for evaluating a bare range over `sheetGrid`. -/
def gridCtx : EvalContext := ⟨sheetGrid, "C1", ["C1"]⟩

/-- C9 counterexample: the claim says a range written with reversed
corners (B2:A1) covers the same cells as A1:B2 via min/max
normalization.  `evaluateRange` has no normalization: B2:A1 yields the
empty list while A1:B2 yields all four values. -/
theorem reversed_range_yields_nothing :
    evaluateAst 10 (.range "B2" "A1") gridCtx = .ok (.arr [])
    ∧ evaluateAst 10 (.range "A1" "B2") gridCtx =
        .ok (.arr [.num ⟨1, 1⟩, .num ⟨3, 1⟩, .num ⟨2, 1⟩, .num ⟨4, 1⟩]) :=
  ⟨rfl, rfl⟩

/-- C9 as amended: `evaluateRange` walks the inclusive span from the
start corner to the end corner ascending on both axes (rows outer,
columns inner) with no min/max normalization, so whenever the end corner
precedes the start corner on either axis the result is the empty list;
ascending corners produce every cell of the rectangle. -/
theorem range_walks_unnormalized_span :
    (∀ (resolve : String → EvalContext → Except String JsVal)
        (s e : String) (ctx : EvalContext) (ps pe : Int × Int),
      parseCellAddress s = some ps → parseCellAddress e = some pe →
      (pe.2 < ps.2 ∨ pe.1 < ps.1) →
      evaluateRange resolve s e ctx = .ok [])
    ∧ evaluateAst 10 (.range "A1" "B2") gridCtx =
        .ok (.arr [.num ⟨1, 1⟩, .num ⟨3, 1⟩, .num ⟨2, 1⟩, .num ⟨4, 1⟩]) := by
  refine ⟨?_, rfl⟩
  intro resolve s e ctx ps pe hs he hlt
  obtain ⟨pscol, psrow⟩ := ps
  obtain ⟨pecol, perow⟩ := pe
  simp only [evaluateRange, rangeAddresses, hs, he]
  rcases hlt with hrow | hcol
  · have hr : intRangeIncl psrow perow = [] := by
      simp only [intRangeIncl, if_pos hrow]
    rw [hr]
    rfl
  · have hc : intRangeIncl pscol pecol = [] := by
      simp only [intRangeIncl, if_pos hcol]
    rw [hc]
    have hfm : ∀ (l : List Int),
        (l.flatMap (fun r => ([] : List Int).map (fun c => (c, r)))) = [] := by
      intro l
      induction l with
      | nil => rfl
      | cons x xs ih => simp [List.flatMap_cons, ih]
    rw [hfm]
    rfl

/-- C9 amended-claim witness: the reversed corners B2:A1 parse to
coordinates where the end row precedes the start row, and the theorem
instantiates to the empty expansion. -/
theorem range_walks_unnormalized_span_witness :
    parseCellAddress "B2" = some (1, 1)
    ∧ parseCellAddress "A1" = some (0, 0)
    ∧ ((0 : Int) < 1 ∨ (0 : Int) < 1)
    ∧ evaluateRange (evaluateCellRef 9) "B2" "A1" gridCtx = .ok [] :=
  ⟨rfl, rfl, Or.inl (by decide),
    range_walks_unnormalized_span.1 (evaluateCellRef 9) "B2" "A1" gridCtx
      (1, 1) (0, 0) rfl rfl (Or.inl (by decide))⟩

/-! ## C10 — absolute-reference flags produced by the parser -/

mutual

/-- Holds when every `ref` node of the AST has its two absolute flags
equal, and equal to whether its address text contains `$` anywhere. -/
def refFlagsOk : FormulaAst → Bool
  | .ref address ac ar => (ac == ar) && (ac == jsIncludes address '$')
  | .func _ args => refFlagsOkList args
  | .binary _ l r => refFlagsOk l && refFlagsOk r
  | .unary _ x => refFlagsOk x
  | _ => true

/-- `refFlagsOk` over an argument list. -/
def refFlagsOkList : List FormulaAst → Bool
  | [] => true
  | a :: rest => refFlagsOk a && refFlagsOkList rest

end

theorem refFlagsOkList_append (xs ys : List FormulaAst) :
    refFlagsOkList (xs ++ ys) = (refFlagsOkList xs && refFlagsOkList ys) := by
  induction xs with
  | nil => simp [refFlagsOkList]
  | cons a xs ih => simp [refFlagsOkList, ih, Bool.and_assoc]

/-- A successful `toCellAddress` returns its input string unchanged. -/
theorem toCellAddress_some {x y : String} (h : toCellAddress x = some y) : y = x := by
  unfold toCellAddress at h
  split at h
  · exact (Option.some_inj.mp h).symm
  · exact Option.noConfusion h

theorem ok_bind {α β ε : Type} (a : α) (k : α → Except ε β) :
    (Except.ok a : Except ε α) >>= k = k a := rfl

theorem error_bind {α β ε : Type} (e : ε) (k : α → Except ε β) :
    (Except.error e : Except ε α) >>= k = (Except.error e : Except ε β) := rfl

/-- Every AST a successful parser run produces satisfies `refFlagsOk`:
the only place a `ref` node is built is `parsePrimary`'s CELL_REF branch,
where both flags are `cellRef.includes('$')` and the stored address is
the token text itself. -/
theorem parserRefOk : ∀ f : Nat,
    (∀ m cur rest out, parseExpressionP f m cur rest = .ok out → refFlagsOk out.1 = true)
    ∧ (∀ m left cur rest out, refFlagsOk left = true →
        parseBinRestP f m left cur rest = .ok out → refFlagsOk out.1 = true)
    ∧ (∀ cur rest out, parsePrimaryP f cur rest = .ok out → refFlagsOk out.1 = true)
    ∧ (∀ n cur rest out, parseFunctionP f n cur rest = .ok out → refFlagsOk out.1 = true)
    ∧ (∀ acc cur rest out, refFlagsOkList acc = true →
        parseArgsRestP f acc cur rest = .ok out → refFlagsOkList out.1 = true) := by
  intro f
  induction f with
  | zero =>
    exact ⟨fun _ _ _ _ h => Except.noConfusion h,
      fun _ _ _ _ _ _ h => Except.noConfusion h,
      fun _ _ _ h => Except.noConfusion h,
      fun _ _ _ _ h => Except.noConfusion h,
      fun _ _ _ _ _ h => Except.noConfusion h⟩
  | succ f ih =>
    obtain ⟨ihE, ihB, ihP, ihF, ihA⟩ := ih
    refine ⟨?_, ?_, ?_, ?_, ?_⟩
    · -- parseExpression
      intro m cur rest out hok
      simp only [parseExpressionP] at hok
      cases hp : parsePrimaryP f cur rest with
      | error e => rw [hp, error_bind] at hok; exact Except.noConfusion hok
      | ok p =>
        rw [hp, ok_bind] at hok
        exact ihB m p.1 p.2.1 p.2.2 out (ihP cur rest p hp) hok
    · -- parseBinRest
      intro m left cur rest out hleft hok
      simp only [parseBinRestP] at hok
      by_cases hop : cur.kind = TokKind.OPERATOR
      · rw [if_pos hop] at hok
        by_cases hpr : precedenceOf cur.value = 0 ∨ precedenceOf cur.value < m
        · rw [if_pos hpr] at hok
          cases hok
          exact hleft
        · rw [if_neg hpr] at hok
          cases ha : nextToken rest with
          | error e => rw [ha, error_bind] at hok; exact Except.noConfusion hok
          | ok a =>
            rw [ha, ok_bind] at hok
            cases hp : parseExpressionP f (precedenceOf cur.value + 1) a.1 a.2 with
            | error e => rw [hp, error_bind] at hok; exact Except.noConfusion hok
            | ok p =>
              rw [hp, ok_bind] at hok
              have hr := ihE _ _ _ _ hp
              refine ihB m (.binary cur.value left p.1) p.2.1 p.2.2 out ?_ hok
              simp [refFlagsOk, hleft, hr]
      · rw [if_neg hop] at hok
        cases hok
        exact hleft
    · -- parsePrimary
      intro cur rest out hok
      simp only [parsePrimaryP] at hok
      cases hck : cur.kind
      all_goals simp only [hck] at hok
      case NUMBER =>
        cases ha : nextToken rest with
        | error e => rw [ha, error_bind] at hok; exact Except.noConfusion hok
        | ok a =>
          rw [ha, ok_bind] at hok
          cases hok
          rfl
      case STRING =>
        cases ha : nextToken rest with
        | error e => rw [ha, error_bind] at hok; exact Except.noConfusion hok
        | ok a =>
          rw [ha, ok_bind] at hok
          cases hok
          rfl
      case CELL_REF =>
        cases ha : nextToken rest with
        | error e => rw [ha, error_bind] at hok; exact Except.noConfusion hok
        | ok a =>
          rw [ha, ok_bind] at hok
          by_cases hcol : a.1.kind = TokKind.COLON
          · rw [if_pos hcol] at hok
            cases hb : nextToken a.2 with
            | error e => rw [hb, error_bind] at hok; exact Except.noConfusion hok
            | ok b =>
              rw [hb, ok_bind] at hok
              by_cases hcr : b.1.kind = TokKind.CELL_REF
              · rw [if_pos hcr] at hok
                cases hc : nextToken b.2 with
                | error e => rw [hc, error_bind] at hok; exact Except.noConfusion hok
                | ok c =>
                  rw [hc, ok_bind] at hok
                  cases hta : toCellAddress cur.value with
                  | none => rw [hta] at hok; exact Except.noConfusion hok
                  | some s =>
                    rw [hta] at hok
                    cases htb : toCellAddress b.1.value with
                    | none => rw [htb] at hok; exact Except.noConfusion hok
                    | some e2 =>
                      rw [htb] at hok
                      cases hok
                      rfl
              · rw [if_neg hcr] at hok
                exact Except.noConfusion hok
          · rw [if_neg hcol] at hok
            cases hta : toCellAddress cur.value with
            | none => rw [hta] at hok; exact Except.noConfusion hok
            | some s =>
              rw [hta] at hok
              cases hok
              have hs := toCellAddress_some hta
              subst hs
              simp [refFlagsOk]
      case FUNCTION =>
        cases ha : nextToken rest with
        | error e => rw [ha, error_bind] at hok; exact Except.noConfusion hok
        | ok a =>
          rw [ha, ok_bind] at hok
          exact ihF cur.value a.1 a.2 out hok
      case LPAREN =>
        cases ha : nextToken rest with
        | error e => rw [ha, error_bind] at hok; exact Except.noConfusion hok
        | ok a =>
          rw [ha, ok_bind] at hok
          cases hp : parseExpressionP f 0 a.1 a.2 with
          | error e => rw [hp, error_bind] at hok; exact Except.noConfusion hok
          | ok p =>
            rw [hp, ok_bind] at hok
            by_cases hrp : p.2.1.kind = TokKind.RPAREN
            · rw [if_pos hrp] at hok
              cases hb : nextToken p.2.2 with
              | error e => rw [hb, error_bind] at hok; exact Except.noConfusion hok
              | ok b =>
                rw [hb, ok_bind] at hok
                cases hok
                exact ihE _ _ _ p hp
            · rw [if_neg hrp] at hok
              exact Except.noConfusion hok
      case OPERATOR =>
        by_cases hun : cur.value = "-" ∨ cur.value = "+"
        · rw [if_pos hun] at hok
          cases ha : nextToken rest with
          | error e => rw [ha, error_bind] at hok; exact Except.noConfusion hok
          | ok a =>
            rw [ha, ok_bind] at hok
            cases hp : parsePrimaryP f a.1 a.2 with
            | error e => rw [hp, error_bind] at hok; exact Except.noConfusion hok
            | ok p =>
              rw [hp, ok_bind] at hok
              cases hok
              show refFlagsOk (.unary cur.value p.1) = true
              simpa [refFlagsOk] using ihP _ _ p hp
        · rw [if_neg hun] at hok
          exact Except.noConfusion hok
      case COLON => exact Except.noConfusion hok
      case COMMA => exact Except.noConfusion hok
      case RPAREN => exact Except.noConfusion hok
      case EOF => exact Except.noConfusion hok
    · -- parseFunction
      intro n cur rest out hok
      simp only [parseFunctionP] at hok
      by_cases hlp : cur.kind = TokKind.LPAREN
      · rw [if_pos hlp] at hok
        cases ha : nextToken rest with
        | error e => rw [ha, error_bind] at hok; exact Except.noConfusion hok
        | ok a =>
          rw [ha, ok_bind] at hok
          by_cases hrp : a.1.kind = TokKind.RPAREN
          · rw [if_pos hrp] at hok
            cases hb : nextToken a.2 with
            | error e => rw [hb, error_bind] at hok; exact Except.noConfusion hok
            | ok b =>
              rw [hb, ok_bind] at hok
              cases hok
              rfl
          · rw [if_neg hrp] at hok
            cases hp : parseExpressionP f 0 a.1 a.2 with
            | error e => rw [hp, error_bind] at hok; exact Except.noConfusion hok
            | ok p =>
              rw [hp, ok_bind] at hok
              cases hq : parseArgsRestP f [p.1] p.2.1 p.2.2 with
              | error e => rw [hq, error_bind] at hok; exact Except.noConfusion hok
              | ok q =>
                rw [hq, ok_bind] at hok
                have hargs : refFlagsOkList q.1 = true := by
                  refine ihA [p.1] p.2.1 p.2.2 q ?_ hq
                  simp [refFlagsOkList, ihE _ _ _ _ hp]
                by_cases hr2 : q.2.1.kind = TokKind.RPAREN
                · rw [if_pos hr2] at hok
                  cases hb : nextToken q.2.2 with
                  | error e => rw [hb, error_bind] at hok; exact Except.noConfusion hok
                  | ok b =>
                    rw [hb, ok_bind] at hok
                    cases hok
                    exact hargs
                · rw [if_neg hr2] at hok
                  exact Except.noConfusion hok
      · rw [if_neg hlp] at hok
        exact Except.noConfusion hok
    · -- parseArgsRest
      intro acc cur rest out hacc hok
      simp only [parseArgsRestP] at hok
      by_cases hcm : cur.kind = TokKind.COMMA
      · rw [if_pos hcm] at hok
        cases ha : nextToken rest with
        | error e => rw [ha, error_bind] at hok; exact Except.noConfusion hok
        | ok a =>
          rw [ha, ok_bind] at hok
          cases hp : parseExpressionP f 0 a.1 a.2 with
          | error e => rw [hp, error_bind] at hok; exact Except.noConfusion hok
          | ok p =>
            rw [hp, ok_bind] at hok
            refine ihA (acc ++ [p.1]) p.2.1 p.2.2 out ?_ hok
            simp [refFlagsOkList_append, hacc, refFlagsOkList, ihE _ _ _ _ hp]
      · rw [if_neg hcm] at hok
        cases hok
        exact hacc

/-- C10 counterexample: the claim's example `$A1` does not parse at all —
a leading `$` cannot start an identifier, so the lexer throws
`Unexpected character` before any CellRef node exists. -/
theorem leading_dollar_does_not_lex :
    parseFormula "$A1" = .error "Unexpected character: $"
    ∧ parseFormula "=$A$1" = .error "Unexpected character: $" := ⟨rfl, rfl⟩

/-- C10 as amended: for every cell-reference token the parser accepts,
the produced CellRef's two absolute flags are equal, both set exactly
when the token contains `$` anywhere (so `A$1` parses with both flags
true); a reference written with a leading `$` (such as `$A1`) is not a
counterexample to this because it never lexes. -/
theorem parsed_ref_flags_agree :
    (∀ (input : String) (ast : FormulaAst),
      parseFormula input = .ok ast → refFlagsOk ast = true)
    ∧ parseFormula "A$1" = .ok (.ref "A$1" true true)
    ∧ jsIncludes "A$1" '$' = true := by
  refine ⟨?_, rfl, rfl⟩
  intro input ast hok
  simp only [parseFormula] at hok
  cases h0 : nextToken (if jsStartsWith input "=" then jsSubstring input 1 else input).data with
  | error e => rw [h0, error_bind] at hok; exact Except.noConfusion hok
  | ok t0 =>
    rw [h0, ok_bind] at hok
    cases hp : parseExpressionP
        (2 * (if jsStartsWith input "=" then jsSubstring input 1 else input).data.length + 8)
        0 t0.1 t0.2 with
    | error e => rw [hp, error_bind] at hok; exact Except.noConfusion hok
    | ok p =>
      rw [hp, ok_bind] at hok
      by_cases he : p.2.1.kind = TokKind.EOF
      · rw [if_pos he] at hok
        have := (parserRefOk _).1 _ _ _ _ hp
        cases hok
        exact this
      · rw [if_neg he] at hok
        exact Except.noConfusion hok

/-- C10 witness: the accepted mixed token `A$1` instantiates the general
clause. -/
theorem parsed_ref_flags_agree_witness :
    parseFormula "A$1" = .ok (.ref "A$1" true true)
    ∧ refFlagsOk (.ref "A$1" true true) = true :=
  ⟨rfl, parsed_ref_flags_agree.1 "A$1" (.ref "A$1" true true) rfl⟩

/-! ## C5 — address codec round-trip -/

theorem char_toNat_ofNat {k : Nat} (h : k < 55296) : (Char.ofNat k).toNat = k := by
  have hv : k.isValidChar := Or.inl h
  unfold Char.ofNat
  rw [dif_pos hv]
  rfl

theorem colToLetterAux_zero (f : Nat) : colToLetterAux f 0 = [] := by
  cases f <;> rfl

/-- The base-26 letter loop is inverted by the `letterToCol` fold. -/
theorem colToLetterAux_fold : ∀ m f, m ≤ f →
    List.foldl (fun acc c => acc * 26 + ((c.toNat : Int) - 65 + 1)) 0
      (colToLetterAux f m) = m := by
  intro m
  induction m using Nat.strong_induction_on with
  | _ m ihm =>
    intro f hf
    cases m with
    | zero => simp [colToLetterAux_zero]
    | succ n =>
      cases f with
      | zero => omega
      | succ f' =>
        have h1 : n / 26 ≤ f' := le_trans (Nat.div_le_self n 26) (by omega)
        have h2 : n / 26 < n + 1 := Nat.lt_succ_of_le (Nat.div_le_self n 26)
        show List.foldl _ 0 (colToLetterAux f' (n / 26) ++ [Char.ofNat (65 + n % 26)]) = _
        rw [List.foldl_append, ihm (n / 26) h2 f' h1]
        simp only [List.foldl_cons, List.foldl_nil]
        rw [char_toNat_ofNat (by omega)]
        have hdm := Nat.div_add_mod n 26
        push_cast
        omega

/-- The letter loop emits only `A`–`Z`. -/
theorem colToLetterAux_upper : ∀ m f, m ≤ f →
    ∀ c ∈ colToLetterAux f m, isUpperAZ c = true := by
  intro m
  induction m using Nat.strong_induction_on with
  | _ m ihm =>
    intro f hf c hc
    cases m with
    | zero => rw [colToLetterAux_zero] at hc; exact absurd hc (List.not_mem_nil c)
    | succ n =>
      cases f with
      | zero => omega
      | succ f' =>
        have h1 : n / 26 ≤ f' := le_trans (Nat.div_le_self n 26) (by omega)
        have h2 : n / 26 < n + 1 := Nat.lt_succ_of_le (Nat.div_le_self n 26)
        have hc' : c ∈ colToLetterAux f' (n / 26) ++ [Char.ofNat (65 + n % 26)] := hc
        rcases List.mem_append.mp hc' with h | h
        · exact ihm (n / 26) h2 f' h1 c h
        · rw [List.mem_singleton.mp h]
          have hmod : n % 26 < 26 := Nat.mod_lt n (by omega)
          simp only [isUpperAZ, char_toNat_ofNat (by omega : 65 + n % 26 < 55296),
            Bool.and_eq_true, decide_eq_true_eq]
          omega

theorem colToLetterAux_ne_nil : ∀ m f, 1 ≤ m → m ≤ f → colToLetterAux f m ≠ [] := by
  intro m f h1 h2
  cases m with
  | zero => omega
  | succ n =>
    cases f with
    | zero => omega
    | succ f' =>
      show colToLetterAux f' (n / 26) ++ [Char.ofNat (65 + n % 26)] ≠ []
      simp

theorem decDigitsAux_zero (f : Nat) : decDigitsAux f 0 = [] := by
  cases f <;> rfl

/-- The decimal digit loop is inverted by the `parseInt` fold. -/
theorem decDigitsAux_fold : ∀ m f, m ≤ f → parseDigits (decDigitsAux f m) = m := by
  intro m
  induction m using Nat.strong_induction_on with
  | _ m ihm =>
    intro f hf
    cases m with
    | zero => simp [decDigitsAux_zero, parseDigits]
    | succ n =>
      cases f with
      | zero => omega
      | succ f' =>
        have hq : (n + 1) / 10 < n + 1 := Nat.div_lt_self (Nat.succ_pos n) (by omega)
        have h1 : (n + 1) / 10 ≤ f' := by omega
        show parseDigits (decDigitsAux f' ((n + 1) / 10)
          ++ [Char.ofNat (48 + (n + 1) % 10)]) = n + 1
        unfold parseDigits
        rw [List.foldl_append]
        have := ihm ((n + 1) / 10) hq f' h1
        unfold parseDigits at this
        rw [this]
        simp only [List.foldl_cons, List.foldl_nil]
        rw [char_toNat_ofNat (by omega)]
        have hdm := Nat.div_add_mod (n + 1) 10
        omega

/-- The decimal digit loop emits only digit characters. -/
theorem decDigitsAux_digits : ∀ m f, m ≤ f →
    ∀ c ∈ decDigitsAux f m, isDigitC c = true := by
  intro m
  induction m using Nat.strong_induction_on with
  | _ m ihm =>
    intro f hf c hc
    cases m with
    | zero => rw [decDigitsAux_zero] at hc; exact absurd hc (List.not_mem_nil c)
    | succ n =>
      cases f with
      | zero => omega
      | succ f' =>
        have hq : (n + 1) / 10 < n + 1 := Nat.div_lt_self (Nat.succ_pos n) (by omega)
        have hc' : c ∈ decDigitsAux f' ((n + 1) / 10)
            ++ [Char.ofNat (48 + (n + 1) % 10)] := hc
        rcases List.mem_append.mp hc' with h | h
        · exact ihm ((n + 1) / 10) hq f' (by omega) c h
        · rw [List.mem_singleton.mp h]
          have hmod : (n + 1) % 10 < 10 := Nat.mod_lt (n + 1) (by omega)
          simp only [isDigitC, char_toNat_ofNat (by omega : 48 + (n + 1) % 10 < 55296),
            Bool.and_eq_true, decide_eq_true_eq]
          omega

/-- A positive number's decimal rendering starts with a digit `1`–`9`. -/
theorem decDigitsAux_head : ∀ m f, 1 ≤ m → m ≤ f →
    ∃ d ds, decDigitsAux f m = d :: ds ∧ 49 ≤ d.toNat ∧ d.toNat ≤ 57 := by
  intro m
  induction m using Nat.strong_induction_on with
  | _ m ihm =>
    intro f h1 hf
    cases m with
    | zero => omega
    | succ n =>
      cases f with
      | zero => omega
      | succ f' =>
        have hq : (n + 1) / 10 < n + 1 := Nat.div_lt_self (Nat.succ_pos n) (by omega)
        show ∃ d ds, decDigitsAux f' ((n + 1) / 10)
          ++ [Char.ofNat (48 + (n + 1) % 10)] = d :: ds ∧ _
        by_cases hz : (n + 1) / 10 = 0
        · rw [hz, decDigitsAux_zero, List.nil_append]
          refine ⟨Char.ofNat (48 + (n + 1) % 10), [], rfl, ?_, ?_⟩
          · rw [char_toNat_ofNat (by omega)]
            omega
          · rw [char_toNat_ofNat (by omega)]
            have : (n + 1) % 10 < 10 := Nat.mod_lt (n + 1) (by omega)
            omega
        · obtain ⟨d, ds, hds, hd1, hd2⟩ :=
            ihm ((n + 1) / 10) hq f' (by omega) (by omega)
          exact ⟨d, ds ++ [Char.ofNat (48 + (n + 1) % 10)], by rw [hds]; rfl, hd1, hd2⟩

theorem takeWhile_append_all {α : Type} {p : α → Bool} :
    ∀ {xs ys : List α}, (∀ x ∈ xs, p x = true) →
      (xs ++ ys).takeWhile p = xs ++ ys.takeWhile p := by
  intro xs
  induction xs with
  | nil => intro ys _; rfl
  | cons a xs ih =>
    intro ys h
    simp only [List.cons_append, List.takeWhile_cons, h a (List.mem_cons_self a xs), if_true]
    rw [ih (fun x hx => h x (List.mem_cons_of_mem a hx))]

theorem dropWhile_append_all {α : Type} {p : α → Bool} :
    ∀ {xs ys : List α}, (∀ x ∈ xs, p x = true) →
      (xs ++ ys).dropWhile p = ys.dropWhile p := by
  intro xs
  induction xs with
  | nil => intro ys _; rfl
  | cons a xs ih =>
    intro ys h
    simp only [List.cons_append, List.dropWhile_cons, h a (List.mem_cons_self a xs), if_true]
    exact ih (fun x hx => h x (List.mem_cons_of_mem a hx))

theorem takeWhile_head_false {α : Type} {p : α → Bool} {y : α} {ys : List α}
    (h : p y = false) : (y :: ys).takeWhile p = [] := by
  simp [List.takeWhile_cons, h]

theorem dropWhile_head_false {α : Type} {p : α → Bool} {y : α} {ys : List α}
    (h : p y = false) : (y :: ys).dropWhile p = y :: ys := by
  simp [List.dropWhile_cons, h]

/-- `splitAddress` recovers the four groups from a well-formed address
character sequence. -/
theorem splitAddress_format (ac ar : Bool) (letters digits : List Char)
    (hl : letters ≠ []) (hup : ∀ c ∈ letters, isUpperAZ c = true)
    (hd : ∃ d ds, digits = d :: ds ∧ 49 ≤ d.toNat ∧ d.toNat ≤ 57
      ∧ ds.all isDigitC = true) :
    splitAddress ((if ac then ['$'] else []) ++ letters
        ++ (if ar then ['$'] else []) ++ digits)
      = some (ac, letters, ar, digits) := by
  obtain ⟨d, ds, hdds, hd1, hd2, hall⟩ := hd
  obtain ⟨l, ls, rfl⟩ := List.exists_cons_of_ne_nil hl
  subst hdds
  have hld : l ≠ '$' := by
    intro hcon
    have := hup l (List.mem_cons_self l ls)
    rw [hcon] at this
    simp [isUpperAZ] at this
  have hdig_not_upper : isUpperAZ d = false := by
    simp only [isUpperAZ]
    rw [decide_eq_false (by omega : ¬ 65 ≤ d.toNat)]
    rfl
  -- the tail after the letters starts with `$` or a digit, never A–Z
  have hmid : ((if ar then ['$'] else []) ++ (d :: ds)).takeWhile isUpperAZ = [] := by
    cases ar with
    | true => exact takeWhile_head_false (by decide)
    | false => exact takeWhile_head_false hdig_not_upper
  have hmid' : ((if ar then ['$'] else []) ++ (d :: ds)).dropWhile isUpperAZ
      = (if ar then ['$'] else []) ++ (d :: ds) := by
    cases ar with
    | true => exact dropWhile_head_false (by decide)
    | false => exact dropWhile_head_false hdig_not_upper
  have hstrip1 : stripDollar ((if ac then ['$'] else []) ++ (l :: ls)
      ++ (if ar then ['$'] else []) ++ (d :: ds))
      = (ac, (l :: ls) ++ (if ar then ['$'] else []) ++ (d :: ds)) := by
    cases ac with
    | true => rfl
    | false =>
      show stripDollar (l :: ((ls ++ (if ar then ['$'] else [])) ++ (d :: ds))) = _
      simp [stripDollar, hld]
  have hstrip2 : stripDollar ((if ar then ['$'] else []) ++ (d :: ds))
      = (ar, d :: ds) := by
    cases ar with
    | true => rfl
    | false =>
      show stripDollar (d :: ds) = _
      have hdne : d ≠ '$' := by
        intro hcon
        rw [hcon] at hd1
        simp at hd1
      simp [stripDollar, hdne]
  have hcond : ((decide (49 ≤ d.toNat) && decide (d.toNat ≤ 57)) && ds.all isDigitC)
      = true := by
    rw [decide_eq_true hd1, decide_eq_true hd2, hall]
    rfl
  simp only [splitAddress, hstrip1]
  rw [List.append_assoc]
  rw [takeWhile_append_all hup, dropWhile_append_all hup, hmid, hmid']
  simp only [List.append_nil, List.isEmpty_cons, hstrip2, Bool.false_eq_true, if_false,
    hcond, if_true]

/-- C5: the address codec round-trips — `parseAddress ∘ formatAddress`
is the identity on all non-negative coordinates with any flag
combination, and `colToLetter` / `letterToCol` are mutual inverses on all
non-negative integers, with the landmark pairs 0↔A, 25↔Z, 26↔AA,
701↔ZZ. -/
theorem address_codec_roundtrip :
    (∀ (c r : Nat) (ac ar : Bool),
      (formatAddress c r ac ar).bind parseAddress
        = some ⟨(c : Int), (r : Int), ac, ar⟩)
    ∧ (∀ n : Nat, letterToCol (colToLetter n) = n)
    ∧ colToLetter 0 = "A" ∧ letterToCol "A" = 0
    ∧ colToLetter 25 = "Z" ∧ letterToCol "Z" = 25
    ∧ colToLetter 26 = "AA" ∧ letterToCol "AA" = 26
    ∧ colToLetter 701 = "ZZ" ∧ letterToCol "ZZ" = 701 := by
  have hletters : ∀ c : Nat, (colToLetter (c : Int)).data = colToLetterAux (c + 1) (c + 1) := by
    intro c
    show (colToLetterAux ((c : Int) + 1).toNat ((c : Int) + 1).toNat) = _
    have : ((c : Int) + 1).toNat = c + 1 := by omega
    rw [this]
  have hfold : ∀ c : Nat,
      List.foldl (fun acc ch => acc * 26 + ((ch.toNat : Int) - 65 + 1)) 0
        (colToLetterAux (c + 1) (c + 1)) = (c : Int) + 1 := by
    intro c
    have := colToLetterAux_fold (c + 1) (c + 1) le_rfl
    rw [this]
    push_cast
    ring
  have hinv : ∀ n : Nat, letterToCol (colToLetter n) = n := by
    intro n
    show (colToLetter (n : Int)).data.foldl _ 0 - 1 = (n : Int)
    rw [hletters n, hfold n]
    ring
  refine ⟨?_, hinv, by decide, by decide, by decide, by decide, by decide, by decide,
    by decide, by decide⟩
  intro c r ac ar
  have hneg : ¬ ((c : Int) < 0 ∨ (r : Int) < 0) := by omega
  have hrow : ((r : Int) + 1).toNat = r + 1 := by omega
  have hrowstr : (natToString (r + 1)).data = decDigitsAux (r + 1) (r + 1) := by
    simp [natToString]
  have hsplit : splitAddress ((if ac then ['$'] else []) ++ (colToLetter (c : Int)).data
      ++ (if ar then ['$'] else []) ++ (natToString ((r : Int) + 1).toNat).data)
      = some (ac, colToLetterAux (c + 1) (c + 1), ar, decDigitsAux (r + 1) (r + 1)) := by
    rw [hrow, hrowstr, hletters c]
    refine splitAddress_format ac ar _ _
      (colToLetterAux_ne_nil (c + 1) (c + 1) (by omega) le_rfl)
      (colToLetterAux_upper (c + 1) (c + 1) le_rfl) ?_
    obtain ⟨d, ds, hds, h1, h2⟩ := decDigitsAux_head (r + 1) (r + 1) (by omega) le_rfl
    refine ⟨d, ds, hds, h1, h2, ?_⟩
    rw [List.all_eq_true]
    intro x hx
    exact decDigitsAux_digits (r + 1) (r + 1) le_rfl x (by rw [hds]; exact List.mem_cons_of_mem d hx)
  have hfmt : formatAddress (c : Int) (r : Int) ac ar
      = some ⟨(if ac then ['$'] else []) ++ (colToLetter (c : Int)).data
          ++ (if ar then ['$'] else []) ++ (natToString ((r : Int) + 1).toNat).data⟩ := by
    simp only [formatAddress, if_neg hneg, toCellAddress]
    rw [if_pos]
    exact Option.isSome_iff_exists.mpr ⟨_, hsplit⟩
  rw [hfmt]
  show parseAddress _ = _
  simp only [parseAddress, hsplit]
  have hcol : letterToCol ⟨colToLetterAux (c + 1) (c + 1)⟩ = (c : Int) := by
    show List.foldl _ 0 (colToLetterAux (c + 1) (c + 1)) - 1 = (c : Int)
    rw [hfold c]
    ring
  have hrowv : parseDigits (decDigitsAux (r + 1) (r + 1)) = r + 1 :=
    decDigitsAux_fold (r + 1) (r + 1) le_rfl
  rw [hcol, hrowv]
  simp

/-! ## C6 — the graph's bidirectional-consistency invariant -/

/-- The two mutating graph operations. -/
inductive GraphOp where
  | addDep (fromCell toCell : String)
  | removeDeps (cell : String)

/-- Apply one operation. -/
def applyOp (g : DependencyGraph) : GraphOp → DependencyGraph
  | .addDep fromCell toCell => addDependency g fromCell toCell
  | .removeDeps cell => removeDependencies g cell

/-- Apply a whole call sequence starting from a fresh graph. -/
def applyOps (ops : List GraphOp) : DependencyGraph :=
  ops.foldl applyOp emptyGraph

/-- The invariant: the two maps are exact inverses — `b` is among `a`'s
dependencies iff `a` is among `b`'s dependents. -/
def InverseMaps (g : DependencyGraph) : Prop :=
  ∀ a b, b ∈ getDependencies g a ↔ a ∈ getDependents g b

theorem find?_map_overwrite {α : Type} (k k' : String) (v : α) :
    ∀ (m : List (String × α)),
      (m.map (fun e => if e.1 = k then (k, v) else e)).find?
          (fun e => decide (e.1 = k'))
        = if k' = k then
            Option.map (fun _ => (k, v)) (m.find? (fun e => decide (e.1 = k)))
          else m.find? (fun e => decide (e.1 = k')) := by
  intro m
  induction m with
  | nil => by_cases h : k' = k <;> simp [h]
  | cons e m ih =>
    simp only [List.map_cons]
    by_cases he : e.1 = k
    · rw [if_pos he]
      by_cases h : k' = k
      · subst h
        have h1 : List.find? (fun x => decide (x.1 = k'))
            ((k', v) :: m.map (fun e => if e.1 = k' then (k', v) else e)) = some (k', v) :=
          List.find?_cons_of_pos _ (by simp)
        have h2 : List.find? (fun x => decide (x.1 = k')) (e :: m) = some e :=
          List.find?_cons_of_pos _ (by simp [he])
        rw [h1, h2, if_pos rfl]
        rfl
      · have hek' : ¬ e.1 = k' := by rw [he]; exact fun hc => h hc.symm
        have h1 : List.find? (fun x => decide (x.1 = k'))
            ((k, v) :: m.map (fun e => if e.1 = k then (k, v) else e))
            = List.find? (fun x => decide (x.1 = k'))
                (m.map (fun e => if e.1 = k then (k, v) else e)) :=
          List.find?_cons_of_neg _ (by simp; exact fun hc => h hc.symm)
        have h2 : List.find? (fun x => decide (x.1 = k')) (e :: m)
            = List.find? (fun x => decide (x.1 = k')) m :=
          List.find?_cons_of_neg _ (by simpa using hek')
        rw [h1, h2, ih]
        simp only [if_neg h]
    · rw [if_neg he]
      by_cases h : k' = k
      · subst h
        have h1 : List.find? (fun x => decide (x.1 = k'))
            (e :: m.map (fun e => if e.1 = k' then (k', v) else e))
            = List.find? (fun x => decide (x.1 = k'))
                (m.map (fun e => if e.1 = k' then (k', v) else e)) :=
          List.find?_cons_of_neg _ (by simpa using he)
        have h2 : List.find? (fun x => decide (x.1 = k')) (e :: m)
            = List.find? (fun x => decide (x.1 = k')) m :=
          List.find?_cons_of_neg _ (by simpa using he)
        rw [h1, h2, ih]
      · by_cases hke : e.1 = k'
        · have h1 : List.find? (fun x => decide (x.1 = k'))
              (e :: m.map (fun e => if e.1 = k then (k, v) else e)) = some e :=
            List.find?_cons_of_pos _ (by simpa using hke)
          have h2 : List.find? (fun x => decide (x.1 = k')) (e :: m) = some e :=
            List.find?_cons_of_pos _ (by simpa using hke)
          rw [h1, h2, if_neg h]
        · have h1 : List.find? (fun x => decide (x.1 = k'))
              (e :: m.map (fun e => if e.1 = k then (k, v) else e))
              = List.find? (fun x => decide (x.1 = k'))
                  (m.map (fun e => if e.1 = k then (k, v) else e)) :=
            List.find?_cons_of_neg _ (by simpa using hke)
          have h2 : List.find? (fun x => decide (x.1 = k')) (e :: m)
              = List.find? (fun x => decide (x.1 = k')) m :=
            List.find?_cons_of_neg _ (by simpa using hke)
          rw [h1, h2, ih]
          simp only [if_neg h]

/-- JS `Map.set` semantics at the lookup level. -/
theorem mapGet_mapSet {α : Type} (m : List (String × α)) (k k' : String) (v : α) :
    mapGet (mapSet m k v) k' = if k' = k then some v else mapGet m k' := by
  unfold mapSet mapGet
  by_cases hk : (m.find? (fun e => decide (e.1 = k))).isSome
  · rw [if_pos hk, find?_map_overwrite]
    by_cases h : k' = k
    · rw [if_pos h, if_pos h]
      obtain ⟨e, he⟩ := Option.isSome_iff_exists.mp hk
      rw [he]
      rfl
    · rw [if_neg h, if_neg h]
  · rw [if_neg hk, List.find?_append]
    by_cases h : k' = k
    · subst h
      rw [Option.not_isSome_iff_eq_none.mp hk]
      simp
    · have : (m.find? (fun e => decide (e.1 = k'))).or
          ([(k, v)].find? (fun e => decide (e.1 = k'))) = m.find? (fun e => decide (e.1 = k')) := by
        rw [List.find?_cons_of_neg _ (by simp; exact fun hc => h hc.symm)]
        simp
      rw [this, if_neg h]

/-- JS `Map.delete` semantics at the lookup level. -/
theorem mapGet_mapDelete {α : Type} (m : List (String × α)) (k k' : String) :
    mapGet (mapDelete m k) k' = if k' = k then none else mapGet m k' := by
  unfold mapGet mapDelete
  induction m with
  | nil => by_cases h : k' = k <;> simp [h]
  | cons e m ih =>
    by_cases he : e.1 = k
    · rw [List.filter_cons_of_neg (by simpa using he), ih]
      by_cases h : k' = k
      · rw [if_pos h, if_pos h]
      · rw [if_neg h, if_neg h,
          List.find?_cons_of_neg _ (by simp; intro hc; rw [hc] at he; exact h he)]
    · rw [List.filter_cons_of_pos (by simpa using he)]
      by_cases hke : e.1 = k'
      · have h : ¬ k' = k := by
          intro hc
          rw [hc] at hke
          exact he hke
        rw [List.find?_cons_of_pos _ (by simpa using hke),
          List.find?_cons_of_pos _ (by simpa using hke), if_neg h]
      · rw [List.find?_cons_of_neg _ (by simpa using hke),
          List.find?_cons_of_neg _ (by simpa using hke), ih]

theorem mem_setAdd {s : List String} {v x : String} :
    x ∈ setAdd s v ↔ x ∈ s ∨ x = v := by
  unfold setAdd
  by_cases h : v ∈ s
  · rw [if_pos h]
    constructor
    · exact Or.inl
    · rintro (hx | rfl)
      · exact hx
      · exact h
  · rw [if_neg h]
    simp [List.mem_append]

theorem mem_setDelete {s : List String} {v x : String} :
    x ∈ setDelete s v ↔ x ∈ s ∧ x ≠ v := by
  unfold setDelete
  simp [List.mem_filter]

theorem setDelete_idem (s : List String) (v : String) :
    setDelete (setDelete s v) v = setDelete s v := by
  unfold setDelete
  rw [List.filter_filter]
  simp

/-- Lookup after the key-ensure prelude of `addDependency`. -/
theorem mapGet_ensure (m : List (String × List String)) (k x : String) :
    mapGet (if (mapGet m k).isSome then m else mapSet m k []) x
      = if x = k then some ((mapGet m k).getD []) else mapGet m x := by
  by_cases hs : (mapGet m k).isSome
  · rw [if_pos hs]
    by_cases hx : x = k
    · subst hx
      obtain ⟨v, hv⟩ := Option.isSome_iff_exists.mp hs
      rw [if_pos rfl, hv]
      rfl
    · rw [if_neg hx]
  · rw [if_neg hs, mapGet_mapSet]
    by_cases hx : x = k
    · rw [if_pos hx, if_pos hx, Option.not_isSome_iff_eq_none.mp hs]
      rfl
    · rw [if_neg hx, if_neg hx]

/-- `addDependency` at the `dependencies` map. -/
theorem getDependencies_addDependency (g : DependencyGraph) (f t a : String) :
    getDependencies (addDependency g f t) a
      = if a = f then setAdd (getDependencies g f) t else getDependencies g a := by
  show (mapGet (mapSet (if (mapGet g.dependencies f).isSome then g.dependencies
      else mapSet g.dependencies f [])
      f (setAdd ((mapGet (if (mapGet g.dependencies f).isSome then g.dependencies
        else mapSet g.dependencies f []) f).getD []) t)) a).getD []
    = _
  rw [mapGet_mapSet, mapGet_ensure, if_pos rfl]
  by_cases ha : a = f
  · rw [if_pos ha, if_pos ha]
    rfl
  · rw [if_neg ha, if_neg ha, mapGet_ensure, if_neg ha]
    rfl

/-- `addDependency` at the `dependents` map. -/
theorem getDependents_addDependency (g : DependencyGraph) (f t b : String) :
    getDependents (addDependency g f t) b
      = if b = t then setAdd (getDependents g t) f else getDependents g b := by
  show (mapGet (mapSet (if (mapGet g.dependents t).isSome then g.dependents
      else mapSet g.dependents t [])
      t (setAdd ((mapGet (if (mapGet g.dependents t).isSome then g.dependents
        else mapSet g.dependents t []) t).getD []) f)) b).getD []
    = _
  rw [mapGet_mapSet, mapGet_ensure, if_pos rfl]
  by_cases hb : b = t
  · rw [if_pos hb, if_pos hb]
    rfl
  · rw [if_neg hb, if_neg hb, mapGet_ensure, if_neg hb]
    rfl

/-- Lookup after the unregister loops of `removeDependencies` (folding a
`setDelete` update over a list of target keys). -/
theorem mapGet_stripFold (cell : String) :
    ∀ (targets : List String) (m : List (String × List String)) (x : String),
      mapGet (targets.foldl (fun m dep =>
          match mapGet m dep with
          | some ds => mapSet m dep (setDelete ds cell)
          | none => m) m) x
        = if x ∈ targets then Option.map (fun ds => setDelete ds cell) (mapGet m x)
          else mapGet m x := by
  intro targets
  induction targets with
  | nil => intro m x; simp
  | cons d targets ih =>
    intro m x
    simp only [List.foldl_cons]
    cases hmd : mapGet m d with
    | none =>
      simp only [hmd]
      rw [ih]
      by_cases hxd : x = d
      · subst hxd
        rw [if_pos (List.mem_cons_self x targets), hmd]
        by_cases hxt : x ∈ targets
        · rw [if_pos hxt]
        · rw [if_neg hxt]
          rfl
      · by_cases hxt : x ∈ targets
        · rw [if_pos hxt, if_pos (List.mem_cons_of_mem d hxt)]
        · rw [if_neg hxt, if_neg (by simp [hxd, hxt])]
    | some ds =>
      simp only [hmd]
      rw [ih]
      by_cases hxd : x = d
      · subst hxd
        rw [if_pos (List.mem_cons_self x targets)]
        by_cases hxt : x ∈ targets
        · rw [if_pos hxt, mapGet_mapSet, if_pos rfl, hmd]
          show some (setDelete (setDelete ds cell) cell) = some (setDelete ds cell)
          rw [setDelete_idem]
        · rw [if_neg hxt, mapGet_mapSet, if_pos rfl, hmd]
          rfl
      · rw [mapGet_mapSet, if_neg hxd]
        by_cases hxt : x ∈ targets
        · rw [if_pos hxt, if_pos (List.mem_cons_of_mem d hxt)]
        · rw [if_neg hxt, if_neg (by simp [hxd, hxt])]

/-- The graph after phase 1 of `removeDependencies` (drop `cell` as a
source). -/
theorem removeDependencies_phase1 (g : DependencyGraph) (cell : String) :
    (∀ a, getDependencies (removeDependenciesPhase1 g cell) a
      = if a = cell then [] else getDependencies g a)
    ∧ (∀ x, getDependents (removeDependenciesPhase1 g cell) x
      = if x ∈ getDependencies g cell then setDelete (getDependents g x) cell
        else getDependents g x) := by
  unfold removeDependenciesPhase1
  cases hd : mapGet g.dependencies cell with
  | none =>
    constructor
    · intro a
      by_cases ha : a = cell
      · subst ha
        rw [if_pos rfl]
        show (mapGet g.dependencies a).getD [] = []
        rw [hd]
        rfl
      · rw [if_neg ha]
    · intro x
      have : getDependencies g cell = [] := by
        show (mapGet g.dependencies cell).getD [] = []
        rw [hd]
        rfl
      rw [this]
      simp
  | some deps =>
    constructor
    · intro a
      show (mapGet (mapDelete g.dependencies cell) a).getD [] = _
      rw [mapGet_mapDelete]
      by_cases ha : a = cell
      · rw [if_pos ha, if_pos ha]
        rfl
      · rw [if_neg ha, if_neg ha]
        rfl
    · intro x
      show (mapGet (deps.foldl _ g.dependents) x).getD [] = _
      rw [mapGet_stripFold]
      have hdeps : getDependencies g cell = deps := by
        show (mapGet g.dependencies cell).getD [] = deps
        rw [hd]
        rfl
      rw [hdeps]
      by_cases hx : x ∈ deps
      · rw [if_pos hx, if_pos hx]
        show (Option.map (fun ds => setDelete ds cell) (mapGet g.dependents x)).getD []
          = setDelete ((mapGet g.dependents x).getD []) cell
        cases mapGet g.dependents x <;> rfl
      · rw [if_neg hx, if_neg hx]
        rfl

/-- `cell`'s dependents as phase 2 of `removeDependencies` sees them
(phase 1 may already have stripped `cell` from its own dependent set,
in the degenerate case where `cell` depended on itself). -/
def midDependents (g : DependencyGraph) (cell : String) : List String :=
  if cell ∈ getDependencies g cell then setDelete (getDependents g cell) cell
  else getDependents g cell

/-- Both lookups of the graph returned by `removeDependencies`, in closed
form. -/
theorem removeDependencies_lookups (g : DependencyGraph) (cell : String) :
    (∀ a, getDependencies (removeDependencies g cell) a
      = if a = cell then []
        else if a ∈ midDependents g cell then setDelete (getDependencies g a) cell
        else getDependencies g a)
    ∧ (∀ b, getDependents (removeDependencies g cell) b
      = if b = cell then []
        else if b ∈ getDependencies g cell then setDelete (getDependents g b) cell
        else getDependents g b) := by
  obtain ⟨hMd, hMt⟩ := removeDependencies_phase1 g cell
  have hmid : getDependents (removeDependenciesPhase1 g cell) cell = midDependents g cell :=
    hMt cell
  have hrd : removeDependencies g cell
      = match mapGet (removeDependenciesPhase1 g cell).dependents cell with
        | some dents =>
          { dependencies := dents.foldl
              (fun m dependent =>
                match mapGet m dependent with
                | some ds => mapSet m dependent (setDelete ds cell)
                | none => m) (removeDependenciesPhase1 g cell).dependencies
            dependents := mapDelete (removeDependenciesPhase1 g cell).dependents cell }
        | none => removeDependenciesPhase1 g cell := rfl
  rw [hrd]
  cases h2 : mapGet (removeDependenciesPhase1 g cell).dependents cell with
  | none =>
    have hmidnil : midDependents g cell = [] := by
      rw [← hmid]
      show (mapGet (removeDependenciesPhase1 g cell).dependents cell).getD [] = []
      rw [h2]
      rfl
    constructor
    · intro a
      show getDependencies (removeDependenciesPhase1 g cell) a = _
      rw [hMd a]
      by_cases ha : a = cell
      · rw [if_pos ha, if_pos ha]
      · rw [if_neg ha, if_neg ha, hmidnil, if_neg (List.not_mem_nil a)]
    · intro b
      show getDependents (removeDependenciesPhase1 g cell) b = _
      rw [hMt b]
      by_cases hb : b = cell
      · rw [if_pos hb]
        subst hb
        exact hmidnil
      · rw [if_neg hb]
  | some dents =>
    have hdents : dents = midDependents g cell := by
      rw [← hmid]
      show dents = (mapGet (removeDependenciesPhase1 g cell).dependents cell).getD []
      rw [h2]
      rfl
    constructor
    · intro a
      show (mapGet (dents.foldl _ (removeDependenciesPhase1 g cell).dependencies) a).getD [] = _
      rw [mapGet_stripFold]
      by_cases had : a ∈ dents
      · rw [if_pos had]
        have : (Option.map (fun ds => setDelete ds cell)
            (mapGet (removeDependenciesPhase1 g cell).dependencies a)).getD []
            = setDelete (getDependencies (removeDependenciesPhase1 g cell) a) cell := by
          show _ = setDelete ((mapGet (removeDependenciesPhase1 g cell).dependencies a).getD []) cell
          cases mapGet (removeDependenciesPhase1 g cell).dependencies a <;> rfl
        rw [this, hMd a]
        by_cases ha : a = cell
        · rw [if_pos ha, if_pos ha]
          rfl
        · rw [if_neg ha, if_neg ha, if_pos (hdents ▸ had)]
      · rw [if_neg had]
        show getDependencies (removeDependenciesPhase1 g cell) a = _
        rw [hMd a]
        by_cases ha : a = cell
        · rw [if_pos ha, if_pos ha]
        · rw [if_neg ha, if_neg ha, if_neg (fun hc => had (hdents ▸ hc))]
    · intro b
      show (mapGet (mapDelete (removeDependenciesPhase1 g cell).dependents cell) b).getD [] = _
      rw [mapGet_mapDelete]
      by_cases hb : b = cell
      · rw [if_pos hb, if_pos hb]
        rfl
      · rw [if_neg hb, if_neg hb]
        exact hMt b

/-- Membership after `removeDependencies`, assuming the invariant held:
every edge survives except those touching `cell`, in both maps. -/
theorem removeDependencies_mem (g : DependencyGraph) (cell : String)
    (hInv : InverseMaps g) :
    (∀ a b, b ∈ getDependencies (removeDependencies g cell) a
      ↔ b ∈ getDependencies g a ∧ a ≠ cell ∧ b ≠ cell)
    ∧ (∀ a b, a ∈ getDependents (removeDependencies g cell) b
      ↔ a ∈ getDependents g b ∧ a ≠ cell ∧ b ≠ cell) := by
  obtain ⟨hL1, hL2⟩ := removeDependencies_lookups g cell
  have hmid_of : ∀ a, a ∈ getDependents g cell → a ≠ cell → a ∈ midDependents g cell := by
    intro a hmem ha
    unfold midDependents
    by_cases hcc : cell ∈ getDependencies g cell
    · rw [if_pos hcc, mem_setDelete]
      exact ⟨hmem, ha⟩
    · rw [if_neg hcc]
      exact hmem
  constructor
  · intro a b
    rw [hL1 a]
    by_cases ha : a = cell
    · rw [if_pos ha]
      simp [ha]
    · rw [if_neg ha]
      by_cases hm : a ∈ midDependents g cell
      · rw [if_pos hm, mem_setDelete]
        constructor
        · rintro ⟨h1, h2⟩
          exact ⟨h1, ha, h2⟩
        · rintro ⟨h1, _, h3⟩
          exact ⟨h1, h3⟩
      · rw [if_neg hm]
        constructor
        · intro hmem
          refine ⟨hmem, ha, ?_⟩
          intro hbc
          subst hbc
          exact hm (hmid_of a ((hInv a b).mp hmem) ha)
        · rintro ⟨h1, _, _⟩
          exact h1
  · intro a b
    rw [hL2 b]
    by_cases hb : b = cell
    · rw [if_pos hb]
      simp [hb]
    · rw [if_neg hb]
      by_cases hm : b ∈ getDependencies g cell
      · rw [if_pos hm, mem_setDelete]
        constructor
        · rintro ⟨h1, h2⟩
          exact ⟨h1, h2, hb⟩
        · rintro ⟨h1, h2, _⟩
          exact ⟨h1, h2⟩
      · rw [if_neg hm]
        constructor
        · intro hmem
          refine ⟨hmem, ?_, hb⟩
          intro hac
          subst hac
          exact hm ((hInv a b).mpr hmem)
        · rintro ⟨h1, _, _⟩
          exact h1

/-- Membership after `addDependency`, at the `dependencies` map. -/
theorem mem_getDependencies_add (g : DependencyGraph) (f t a b : String) :
    b ∈ getDependencies (addDependency g f t) a
      ↔ b ∈ getDependencies g a ∨ (a = f ∧ b = t) := by
  rw [getDependencies_addDependency]
  by_cases ha : a = f
  · subst ha
    rw [if_pos rfl, mem_setAdd]
    constructor
    · rintro (h | rfl)
      · exact Or.inl h
      · exact Or.inr ⟨rfl, rfl⟩
    · rintro (h | ⟨-, rfl⟩)
      · exact Or.inl h
      · exact Or.inr rfl
  · rw [if_neg ha]
    simp [ha]

/-- Membership after `addDependency`, at the `dependents` map. -/
theorem mem_getDependents_add (g : DependencyGraph) (f t a b : String) :
    a ∈ getDependents (addDependency g f t) b
      ↔ a ∈ getDependents g b ∨ (a = f ∧ b = t) := by
  rw [getDependents_addDependency]
  by_cases hb : b = t
  · subst hb
    rw [if_pos rfl, mem_setAdd]
    constructor
    · rintro (h | rfl)
      · exact Or.inl h
      · exact Or.inr ⟨rfl, rfl⟩
    · rintro (h | ⟨rfl, -⟩)
      · exact Or.inl h
      · exact Or.inr rfl
  · rw [if_neg hb]
    simp [hb]

theorem inverseMaps_addDependency (g : DependencyGraph) (f t : String)
    (hInv : InverseMaps g) : InverseMaps (addDependency g f t) := by
  intro a b
  rw [mem_getDependencies_add, mem_getDependents_add, hInv a b]

theorem inverseMaps_removeDependencies (g : DependencyGraph) (cell : String)
    (hInv : InverseMaps g) : InverseMaps (removeDependencies g cell) := by
  intro a b
  obtain ⟨h1, h2⟩ := removeDependencies_mem g cell hInv
  rw [h1 a b, h2 a b, hInv a b]

theorem inverseMaps_emptyGraph : InverseMaps emptyGraph := by
  intro a b
  show b ∈ ([] : List String) ↔ a ∈ ([] : List String)
  simp

theorem inverseMaps_foldl :
    ∀ (ops : List GraphOp) (g : DependencyGraph),
      InverseMaps g → InverseMaps (ops.foldl applyOp g) := by
  intro ops
  induction ops with
  | nil => intro g hg; exact hg
  | cons op ops ih =>
    intro g hg
    rw [List.foldl_cons]
    apply ih
    cases op with
    | addDep f t => exact inverseMaps_addDependency g f t hg
    | removeDeps cell => exact inverseMaps_removeDependencies g cell hg

/-! ## C7 — `hasCycle` decides reachability -/

/-- Reachability along dependency edges: `Reaches g x y` iff `y` can be
reached from `x` by following `dependencies` edges (zero or more). -/
inductive Reaches (g : DependencyGraph) : String → String → Prop where
  | refl {x : String} : Reaches g x x
  | step {x d y : String} :
      d ∈ getDependencies g x → Reaches g d y → Reaches g x y

theorem dfsReach_zero (g : DependencyGraph) (fromCell : String)
    (stack visited : List String) :
    dfsReach g fromCell 0 stack visited = false := rfl

theorem dfsReach_succ_nil (g : DependencyGraph) (fromCell : String) (f : Nat)
    (visited : List String) :
    dfsReach g fromCell (f + 1) [] visited = false := rfl

theorem dfsReach_succ (g : DependencyGraph) (fromCell : String) (f : Nat)
    (current : String) (stack visited : List String) :
    dfsReach g fromCell (f + 1) (current :: stack) visited
      = if current = fromCell then true
        else if current ∈ visited then dfsReach g fromCell f stack visited
        else dfsReach g fromCell f
          (((getDependencies g current).filter
              (fun d => ¬ d ∈ (current :: visited))).reverse ++ stack)
          (current :: visited) := rfl

/-- Soundness: if the DFS answers `true`, some stack element reaches the
searched-for cell. -/
theorem dfs_sound (g : DependencyGraph) (fromCell : String) :
    ∀ (fuel : Nat) (stack visited : List String),
      dfsReach g fromCell fuel stack visited = true →
      ∃ s ∈ stack, Reaches g s fromCell := by
  intro fuel
  induction fuel with
  | zero =>
    intro stack visited h
    rw [dfsReach_zero] at h
    exact Bool.noConfusion h
  | succ f ih =>
    intro stack visited h
    cases stack with
    | nil =>
      rw [dfsReach_succ_nil] at h
      exact Bool.noConfusion h
    | cons current stack =>
      rw [dfsReach_succ] at h
      by_cases hc : current = fromCell
      · exact ⟨current, List.mem_cons_self _ _, by rw [hc]; exact Reaches.refl⟩
      · rw [if_neg hc] at h
        by_cases hv : current ∈ visited
        · rw [if_pos hv] at h
          obtain ⟨s, hs, hr⟩ := ih _ _ h
          exact ⟨s, List.mem_cons_of_mem _ hs, hr⟩
        · rw [if_neg hv] at h
          obtain ⟨s, hs, hr⟩ := ih _ _ h
          rcases List.mem_append.mp hs with h' | h'
          · exact ⟨current, List.mem_cons_self _ _,
              Reaches.step (List.mem_filter.mp (List.mem_reverse.mp h')).1 hr⟩
          · exact ⟨s, List.mem_cons_of_mem _ h', hr⟩

/-- A visited node that reaches the target hands the search over to some
stack node: the visited set has no outgoing edges leaving
`visited ∪ stack`. -/
theorem dfs_escape (g : DependencyGraph) (visited stack : List String)
    (hInv : ∀ w ∈ visited, ∀ d ∈ getDependencies g w, d ∈ visited ∨ d ∈ stack) :
    ∀ v y, Reaches g v y → v ∈ visited → y ∉ visited →
      ∃ t ∈ stack, Reaches g t y := by
  intro v y hr
  induction hr with
  | refl =>
    intro hv hy
    exact absurd hv hy
  | step hd hr' ih =>
    rename_i x d y
    intro hv hy
    rcases hInv _ hv _ hd with h | h
    · exact ih h hy
    · exact ⟨d, h, hr'⟩

/-- Every dependency-edge target is in the node universe used to size the
DFS fuel. -/
theorem mem_univAux :
    ∀ (m : List (String × List String)) (e : String × List String), e ∈ m →
      ∀ d ∈ e.2, d ∈ m.foldr (fun e acc => e.1 :: e.2 ++ acc) [] := by
  intro m
  induction m with
  | nil =>
    intro e he d _
    exact absurd he (List.not_mem_nil e)
  | cons f m ih =>
    intro e he d hd
    rw [List.foldr_cons]
    rcases List.mem_cons.mp he with h' | he'
    · subst h'
      exact List.mem_cons_of_mem _ (List.mem_append.mpr (Or.inl hd))
    · exact List.mem_cons_of_mem _ (List.mem_append.mpr (Or.inr (ih e he' d hd)))

theorem mem_univList_of_dep (g : DependencyGraph) (toCell c d : String)
    (h : d ∈ getDependencies g c) : d ∈ univList g toCell := by
  unfold getDependencies at h
  cases hm : mapGet g.dependencies c with
  | none =>
    rw [hm] at h
    exact absurd h (List.not_mem_nil d)
  | some l =>
    rw [hm] at h
    obtain ⟨e, hfind, hsnd⟩ := Option.map_eq_some'.mp hm
    have hmem : e ∈ g.dependencies := List.mem_of_find?_eq_some hfind
    unfold univList
    refine List.mem_cons_of_mem _ (mem_univAux g.dependencies e hmem d ?_)
    rw [hsnd]
    exact h

theorem foldl_len_mono :
    ∀ (m : List (String × List String)) (acc : Nat),
      acc ≤ m.foldl (fun a e => a + e.2.length) acc := by
  intro m
  induction m with
  | nil => intro acc; exact le_rfl
  | cons f m ih =>
    intro acc
    rw [List.foldl_cons]
    exact le_trans (Nat.le_add_right acc f.2.length) (ih (acc + f.2.length))

theorem mem_len_le_foldl :
    ∀ (m : List (String × List String)) (e : String × List String), e ∈ m →
      ∀ acc : Nat, acc + e.2.length ≤ m.foldl (fun a e => a + e.2.length) acc := by
  intro m
  induction m with
  | nil =>
    intro e he
    exact absurd he (List.not_mem_nil e)
  | cons f m ih =>
    intro e he acc
    rw [List.foldl_cons]
    rcases List.mem_cons.mp he with h' | he'
    · subst h'
      exact foldl_len_mono m (acc + e.2.length)
    · exact le_trans (Nat.add_le_add_right (Nat.le_add_right acc f.2.length) e.2.length)
        (ih e he' (acc + f.2.length))

/-- One node's dependency list is never longer than the whole edge count. -/
theorem deps_le_total (g : DependencyGraph) (c : String) :
    (getDependencies g c).length ≤ totalDepSize g := by
  unfold getDependencies totalDepSize
  cases hm : mapGet g.dependencies c with
  | none =>
    show ([] : List String).length ≤ _
    exact Nat.zero_le _
  | some l =>
    obtain ⟨e, hfind, hsnd⟩ := Option.map_eq_some'.mp hm
    have hmem : e ∈ g.dependencies := List.mem_of_find?_eq_some hfind
    have hle := mem_len_le_foldl g.dependencies e hmem 0
    rw [Nat.zero_add] at hle
    show l.length ≤ _
    rw [← hsnd]
    exact hle

/-- Expanding an unvisited universe node shrinks the unvisited part of the
universe by exactly one. -/
theorem card_diff_cons (univ : List String) (current : String) (visited : List String)
    (hU : current ∈ univ) (hv : current ∉ visited) :
    (univ.toFinset \ (current :: visited).toFinset).card + 1
      = (univ.toFinset \ visited.toFinset).card := by
  rw [List.toFinset_cons, Finset.sdiff_insert]
  have hmem : current ∈ univ.toFinset \ visited.toFinset :=
    Finset.mem_sdiff.mpr
      ⟨List.mem_toFinset.mpr hU, fun hcon => hv (List.mem_toFinset.mp hcon)⟩
  rw [Finset.card_erase_of_mem hmem]
  have hpos : 0 < (univ.toFinset \ visited.toFinset).card :=
    Finset.card_pos.mpr ⟨current, hmem⟩
  omega

/-- Completeness: with the loop invariants and enough fuel, the DFS finds
any stack element that reaches the searched-for cell. -/
theorem dfs_complete (g : DependencyGraph) (fromCell toCell : String) :
    ∀ (fuel : Nat) (stack visited : List String),
      (∀ s ∈ stack, s ∈ univList g toCell) →
      (∀ w ∈ visited, ∀ d ∈ getDependencies g w, d ∈ visited ∨ d ∈ stack) →
      fromCell ∉ visited →
      stack.length + ((univList g toCell).toFinset \ visited.toFinset).card
          * (1 + totalDepSize g) + 1 ≤ fuel →
      (∃ s ∈ stack, Reaches g s fromCell) →
      dfsReach g fromCell fuel stack visited = true := by
  intro fuel
  induction fuel with
  | zero =>
    intro stack visited _ _ _ hfuel _
    exact absurd hfuel (Nat.not_succ_le_zero _)
  | succ f ih =>
    intro stack visited hU hInv hfrom hfuel hex
    cases stack with
    | nil =>
      obtain ⟨s, hs, _⟩ := hex
      exact absurd hs (List.not_mem_nil s)
    | cons current stack =>
      rw [dfsReach_succ]
      by_cases hc : current = fromCell
      · rw [if_pos hc]
      · rw [if_neg hc]
        by_cases hv : current ∈ visited
        · rw [if_pos hv]
          have hInv' : ∀ w ∈ visited, ∀ d ∈ getDependencies g w,
              d ∈ visited ∨ d ∈ stack := by
            intro w hw d hd
            rcases hInv w hw d hd with h | h
            · exact Or.inl h
            · rcases List.mem_cons.mp h with h' | h'
              · exact Or.inl (by rw [h']; exact hv)
              · exact Or.inr h'
          have hex' : ∃ s ∈ stack, Reaches g s fromCell := by
            obtain ⟨s, hs, hr⟩ := hex
            rcases List.mem_cons.mp hs with h' | hs'
            · exact dfs_escape g visited stack hInv' s fromCell hr
                (by rw [h']; exact hv) hfrom
            · exact ⟨s, hs', hr⟩
          have hfuel' : stack.length
              + ((univList g toCell).toFinset \ visited.toFinset).card
                * (1 + totalDepSize g) + 1 ≤ f := by
            simp only [List.length_cons] at hfuel
            omega
          exact ih stack visited (fun s hs => hU s (List.mem_cons_of_mem _ hs))
            hInv' hfrom hfuel' hex'
        · rw [if_neg hv]
          have hfc : fromCell ∉ current :: visited := by
            intro hmem
            rcases List.mem_cons.mp hmem with h | h
            · exact hc h.symm
            · exact hfrom h
          have hU' : ∀ s ∈ ((getDependencies g current).filter
                (fun d => ¬ d ∈ (current :: visited))).reverse ++ stack,
              s ∈ univList g toCell := by
            intro s hs
            rcases List.mem_append.mp hs with h | h
            · exact mem_univList_of_dep g toCell current s
                (List.mem_filter.mp (List.mem_reverse.mp h)).1
            · exact hU s (List.mem_cons_of_mem _ h)
          have hInv' : ∀ w ∈ current :: visited, ∀ d ∈ getDependencies g w,
              d ∈ current :: visited ∨ d ∈ ((getDependencies g current).filter
                (fun d => ¬ d ∈ (current :: visited))).reverse ++ stack := by
            intro w hw d hd
            rcases List.mem_cons.mp hw with h' | hw'
            · subst h'
              by_cases hdv : d ∈ w :: visited
              · exact Or.inl hdv
              · refine Or.inr (List.mem_append.mpr (Or.inl ?_))
                refine List.mem_reverse.mpr (List.mem_filter.mpr ⟨hd, ?_⟩)
                simpa using hdv
            · rcases hInv w hw' d hd with h | h
              · exact Or.inl (List.mem_cons_of_mem _ h)
              · rcases List.mem_cons.mp h with h'' | h''
                · exact Or.inl (by rw [h'']; exact List.mem_cons_self _ _)
                · exact Or.inr (List.mem_append.mpr (Or.inr h''))
          have hcard := card_diff_cons (univList g toCell) current visited
            (hU current (List.mem_cons_self _ _)) hv
          have hlen : (((getDependencies g current).filter
              (fun d => ¬ d ∈ (current :: visited))).reverse).length
              ≤ totalDepSize g := by
            rw [List.length_reverse]
            exact le_trans (List.length_filter_le _ _) (deps_le_total g current)
          have hfuel' : (((getDependencies g current).filter
                (fun d => ¬ d ∈ (current :: visited))).reverse ++ stack).length
              + ((univList g toCell).toFinset \ (current :: visited).toFinset).card
                * (1 + totalDepSize g) + 1 ≤ f := by
            rw [List.length_append]
            rw [← hcard] at hfuel
            have hK : (((univList g toCell).toFinset
                  \ (current :: visited).toFinset).card + 1)
                * (1 + totalDepSize g)
                = ((univList g toCell).toFinset
                    \ (current :: visited).toFinset).card
                  * (1 + totalDepSize g) + (1 + totalDepSize g) := by
              ring
            rw [hK] at hfuel
            simp only [List.length_cons] at hfuel
            omega
          have hex' : ∃ s ∈ ((getDependencies g current).filter
                (fun d => ¬ d ∈ (current :: visited))).reverse ++ stack,
              Reaches g s fromCell := by
            obtain ⟨s, hs, hr⟩ := hex
            rcases List.mem_cons.mp hs with h' | hs'
            · subst h'
              cases hr with
              | refl => exact absurd rfl hc
              | step hd hr' =>
                rename_i d
                by_cases hdv : d ∈ s :: visited
                · exact dfs_escape g (s :: visited)
                    (((getDependencies g s).filter
                      (fun d => ¬ d ∈ (s :: visited))).reverse ++ stack)
                    hInv' d fromCell hr' hdv hfc
                · exact ⟨d, List.mem_append.mpr (Or.inl (List.mem_reverse.mpr
                    (List.mem_filter.mpr ⟨hd, by simpa using hdv⟩))), hr'⟩
            · exact ⟨s, List.mem_append.mpr (Or.inr hs'), hr⟩
          exact ih _ _ hU' hInv' hfc hfuel' hex'

/-- C6: the `dependencies` and `dependents` maps are exact inverses.
After any sequence of the graph's two mutating operations
(`addDependency`, `removeDependencies`) starting from the empty graph,
`b` is listed among `a`'s dependencies if and only if `a` is listed
among `b`'s dependents. -/
theorem graph_maps_are_inverse :
    ∀ (ops : List GraphOp), InverseMaps (applyOps ops) := by
  intro ops
  exact inverseMaps_foldl ops emptyGraph inverseMaps_emptyGraph

/-- C7: for every graph state and every pair of addresses,
`hasCycle(from, to)` returns `true` exactly when `from` is reachable from
`to` along existing `dependencies` edges; in particular, with the single
edge A1→B1 present, `hasCycle(B1, A1)` returns `true`. -/
theorem hasCycle_decides_reachability :
    (∀ (g : DependencyGraph) (fromCell toCell : String),
      hasCycle g fromCell toCell = true ↔ Reaches g toCell fromCell)
    ∧ hasCycle (addDependency emptyGraph "A1" "B1") "B1" "A1" = true := by
  constructor
  · intro g fromCell toCell
    constructor
    · intro h
      obtain ⟨s, hs, hr⟩ := dfs_sound g fromCell _ _ _ h
      rw [← List.mem_singleton.mp hs]
      exact hr
    · intro hr
      show dfsReach g fromCell
        ((univList g toCell).length * (1 + totalDepSize g) + 2) [toCell] [] = true
      apply dfs_complete g fromCell toCell _ [toCell] []
      · intro s hs
        rw [List.mem_singleton.mp hs]
        exact List.mem_cons_self _ _
      · intro w hw
        exact absurd hw (List.not_mem_nil w)
      · exact List.not_mem_nil fromCell
      · have h1 : ((univList g toCell).toFinset
            \ ([] : List String).toFinset).card ≤ (univList g toCell).length := by
          rw [List.toFinset_nil, Finset.sdiff_empty]
          exact List.toFinset_card_le _
        have h2 := Nat.mul_le_mul_right (1 + totalDepSize g) h1
        simp only [List.length_cons, List.length_nil]
        omega
      · exact ⟨toCell, List.mem_cons_self _ _, hr⟩
  · rfl

end Spreadsheet
